import Mathlib

/-!
Verification of the sequence-matching localizer of ProbabilisticFiltersVPR
(src/models/SeqMatching.py and src/models/SingleImageMatching.py).

The development embeds the two Python classes at two levels of value
semantics:

* an exact-arithmetic tier (`SeqMatchingExact`), generic over a linear
  ordered field, used for claims that quantify over arbitrary distance or
  score matrices and for decidable witnesses at `ℚ`;
* an IEEE-special-value tier over `NpVal` (a real number, NaN, or a signed
  infinity), used for the claims whose content is the behaviour of
  `np.sqrt` on negative radicands, division by a zero standard deviation,
  and the propagation of non-finite values (`SeqMatching`,
  `SingleImageMatching`).

Both tiers translate the same source lines; the `NpVal` tier is the
reference semantics of the NumPy float operations the source uses, the
exact tier is its restriction to finite values.
-/

/-- Failure modes of the matching pipeline.  The constructors
`invalidConfiguration` and `insufficientCandidates` are modelled from the
spec's error taxonomy (§7): no such named errors exist anywhere in the
source.  The `valueError…`/`indexError` constructors model the Python
exceptions the source can actually raise: `np.empty` on a negative size,
`np.argmin` of an empty array, built-in `min` of an empty sequence, and
out-of-range indexing. -/
inductive SMError where
  | invalidConfiguration
  | insufficientCandidates
  | valueErrorNegativeDimensions
  | valueErrorEmptyArgmin
  | valueErrorEmptyMin
  | indexError
deriving DecidableEq

/-- Python `int()` applied to a real value: truncation toward zero.  Used by
`max_ind = int(N - 1 - self.vMax * L)` in `_score_ref_templates`. -/
def npInt {α : Type} [LinearOrderedField α] [FloorRing α] (x : α) : ℤ :=
  if 0 ≤ x then ⌊x⌋ else ⌈x⌉

/-- Model of `np.linspace a b n`: `n` evenly spaced samples from `a` to `b` with both
endpoints included (for `n = 1` the single sample is `a`, matching NumPy,
because division by zero yields zero in a field). -/
def linspace {α : Type} [LinearOrderedField α] (a b : α) (n : ℕ) : List α :=
  (List.range n).map (fun (k : ℕ) => a + (k : α) * ((b - a) / ((n : α) - 1)))

/-- Python/NumPy integer indexing: indices in `[-len, len)` are valid, with
negative indices wrapping from the end; anything else raises `IndexError`. -/
def pyIndex {β : Type} [Inhabited β] (l : List β) (i : ℤ) : Except SMError β :=
  let j : ℤ := if i < 0 then i + l.length else i
  if 0 ≤ j ∧ j < l.length then .ok (l.getD j.toNat default) else .error .indexError

namespace SeqMatchingExact

section ArgminMin

variable {α : Type} [LinearOrder α] [Inhabited α]

/-- Accumulator loop of `np.argmin` on floats without special values:
index of the first minimum. -/
def argminGo : List α → α → ℕ → ℕ → ℕ
  | [], _, bi, _ => bi
  | x :: xs, b, bi, ci =>
    if x < b then argminGo xs x ci (ci + 1) else argminGo xs b bi (ci + 1)

/-- Model of `np.argmin` on a vector of ordinary (finite) values; ties broken by the
lowest index.  `np.argmin` of an empty array raises, which
`locate_best_match` models separately. -/
def npArgmin : List α → ℕ
  | [] => 0
  | x :: xs => argminGo xs x 0 1

/-- Python built-in `min` over a nonempty sequence: keep the accumulator
unless a strictly smaller element appears. -/
def pymin (x : α) (xs : List α) : α :=
  xs.foldl (fun acc y => if y < acc then y else acc) x

/-- Reference characterisation of the first-argmin, used only in proofs:
`0` on the empty list, else the head if it is no larger than the minimum of
the tail, else one past the tail's first-argmin. -/
def firstArgmin : List α → ℕ
  | [] => 0
  | x :: xs => if (x : WithTop α) ≤ xs.minimum then 0 else firstArgmin xs + 1

end ArgminMin

variable {α : Type} [LinearOrderedField α] [FloorRing α] [Inhabited α]

/-- The entries `D[int(np.floor(i + vel * t)), t]` visited by the constant
velocity line search of `_score_ref_templates`, for the given time steps. -/
def pathEntries (D : List (List α)) (vel : α) (i : ℕ) :
    List ℕ → Except SMError (List α)
  | [] => .ok []
  | t :: ts => do
    let row ← pyIndex D ⌊(i : α) + vel * (t : α)⌋
    let x ← pyIndex row (t : ℤ)
    let rest ← pathEntries D vel i ts
    .ok (x :: rest)

/-- The per-start-index aggregate differences
`Dsum = np.sum(D[row_indices, col_indices].reshape(max_ind, L), axis=1)`
of `_score_ref_templates` for one velocity. -/
def velCosts (D : List (List α)) (L : ℕ) (vel : α) :
    List ℕ → Except SMError (List α)
  | [] => .ok []
  | i :: is => do
    let es ← pathEntries D vel i (List.range L)
    let rest ← velCosts D L vel is
    .ok (es.sum :: rest)

/-- The velocity loop of `_score_ref_templates`: for each velocity, replace
`optD[i]` by `Dsum[i]` where `Dsum < optD` elementwise.  `⊤ : WithTop α`
models the `np.inf` initialisation. -/
def velLoop (D : List (List α)) (L : ℕ) (refs : List ℕ)
    (optD : List (WithTop α)) : List α → Except SMError (List (WithTop α))
  | [] => .ok optD
  | v :: vs => do
    let costs ← velCosts D L v refs
    velLoop D L refs
      (optD.zipWith (fun (o : WithTop α) (c : α) =>
        if (c : WithTop α) < o then (c : WithTop α) else o) costs) vs

/-- Model of `SeqMatching._score_ref_templates`, exact-arithmetic tier.
`np.empty(max_ind)` raises `ValueError: negative dimensions are not allowed`
when `max_ind < 0`; otherwise the velocity loop runs on
`optD = [inf, …, inf]` of length `max_ind`. -/
def score_ref_templates (vMin vMax : α) (numVel : ℕ) (D : List (List α)) :
    Except SMError (List (WithTop α)) :=
  let N := D.length
  let L := (D.getD 0 []).length
  let velocities := linspace vMin vMax (numVel + 1)
  let maxInd : ℤ := npInt ((N : α) - 1 - vMax * (L : α))
  if maxInd < 0 then .error .valueErrorNegativeDimensions
  else velLoop D L (List.range maxInd.toNat) (List.replicate maxInd.toNat ⊤) velocities

/-- Model of `SeqMatching._locate_best_match`, exact-arithmetic tier.  `np.argmin` of
an empty vector and `min` of an empty sequence both raise `ValueError` in
Python; the window bounds use `int(matchWindow / 2)` (floor for nonnegative
ints), clamped with `np.maximum(…, 0)` and `np.minimum(…, len)`. -/
def locate_best_match (matchWindow : ℕ) (S : List α) : Except SMError (ℕ × α) :=
  if S.isEmpty then .error .valueErrorEmptyArgmin
  else
    let iOpt := npArgmin S
    let iWinL := iOpt - matchWindow / 2
    let iWinU := min (iOpt + matchWindow / 2) S.length
    match S.take iWinL ++ S.drop iWinU with
    | [] => .error .valueErrorEmptyMin
    | o :: os =>
      let optOutside := pymin o os
      if 0 < optOutside then .ok (iOpt, S.getD iOpt default / optOutside)
      else .ok (iOpt, optOutside / S.getD iOpt default)

end SeqMatchingExact

/-- A NumPy double as the source manipulates it: a finite real value, NaN,
or a signed infinity.  (Exact real carriers; rounding is not modelled, the
special values and their propagation are.) -/
inductive NpVal where
  | fin (x : ℝ)
  | nan
  | inf
  | ninf

instance : Inhabited NpVal := ⟨.nan⟩

/-- Is the value NaN? -/
def npIsNan : NpVal → Bool
  | .nan => true
  | _ => false

/-- Is the value finite (neither NaN nor an infinity)? -/
def npIsFin : NpVal → Bool
  | .fin _ => true
  | _ => false

/-- IEEE-754 addition on `NpVal`. -/
def npAdd : NpVal → NpVal → NpVal
  | .nan, _ => .nan
  | _, .nan => .nan
  | .inf, .ninf => .nan
  | .ninf, .inf => .nan
  | .inf, _ => .inf
  | _, .inf => .inf
  | .ninf, _ => .ninf
  | _, .ninf => .ninf
  | .fin a, .fin b => .fin (a + b)

/-- IEEE-754 negation on `NpVal`. -/
def npNeg : NpVal → NpVal
  | .fin a => .fin (-a)
  | .nan => .nan
  | .inf => .ninf
  | .ninf => .inf

/-- IEEE-754 subtraction on `NpVal`. -/
def npSub (a b : NpVal) : NpVal := npAdd a (npNeg b)

/-- IEEE-754 multiplication on `NpVal` (`inf * 0 = nan`). -/
noncomputable def npMul : NpVal → NpVal → NpVal
  | .nan, _ => .nan
  | _, .nan => .nan
  | .inf, .inf => .inf
  | .inf, .ninf => .ninf
  | .ninf, .inf => .ninf
  | .ninf, .ninf => .inf
  | .inf, .fin b => if b = 0 then .nan else if 0 < b then .inf else .ninf
  | .fin a, .inf => if a = 0 then .nan else if 0 < a then .inf else .ninf
  | .ninf, .fin b => if b = 0 then .nan else if 0 < b then .ninf else .inf
  | .fin a, .ninf => if a = 0 then .nan else if 0 < a then .ninf else .inf
  | .fin a, .fin b => .fin (a * b)

/-- IEEE-754 division on `NpVal` with NumPy's conventions for zero
denominators (the exact zero is unsigned, i.e. `+0.0`): `x / 0 = ±inf`
according to the sign of `x`, and `0 / 0 = nan`. -/
noncomputable def npDiv : NpVal → NpVal → NpVal
  | .nan, _ => .nan
  | _, .nan => .nan
  | .inf, .inf => .nan
  | .inf, .ninf => .nan
  | .ninf, .inf => .nan
  | .ninf, .ninf => .nan
  | .inf, .fin b => if 0 ≤ b then .inf else .ninf
  | .ninf, .fin b => if 0 ≤ b then .ninf else .inf
  | .fin _, .inf => .fin 0
  | .fin _, .ninf => .fin 0
  | .fin a, .fin b =>
    if b = 0 then (if a = 0 then .nan else if 0 < a then .inf else .ninf)
    else .fin (a / b)

/-- Model of `np.sqrt` on `NpVal`: NaN on negative arguments — there is no clamping
in IEEE square root. -/
noncomputable def npSqrt : NpVal → NpVal
  | .nan => .nan
  | .inf => .inf
  | .ninf => .nan
  | .fin a => if a < 0 then .nan else .fin (Real.sqrt a)

/-- IEEE-754 `<` on `NpVal` as a Boolean: every comparison with NaN is
false. -/
noncomputable def npLtb : NpVal → NpVal → Bool
  | .nan, _ => false
  | _, .nan => false
  | .fin a, .fin b => a < b
  | .fin _, .inf => true
  | .inf, _ => false
  | .ninf, .ninf => false
  | .ninf, _ => true
  | .fin _, .ninf => false

/-- Model of `np.sum`: left fold of IEEE addition starting from `0.0`. -/
def npSum (l : List NpVal) : NpVal := l.foldl npAdd (.fin 0)

/-- Model of `np.mean`: sum divided by length (length `0` gives `0/0 = nan`,
matching NumPy's warning-and-nan behaviour on empty slices). -/
noncomputable def npMean (l : List NpVal) : NpVal :=
  npDiv (npSum l) (.fin (l.length : ℝ))

/-- Model of `np.std` (population): square root of the mean squared deviation. -/
noncomputable def npStd (l : List NpVal) : NpVal :=
  let m := npMean l
  npSqrt (npDiv (npSum (l.map (fun x => npMul (npSub x m) (npSub x m))))
    (.fin (l.length : ℝ)))

/-- Accumulator loop of `np.argmin` on floats with special values: a NaN
displaces a non-NaN accumulator (NumPy propagates NaN, returning the index
of the first NaN), otherwise strict IEEE `<` improves the accumulator. -/
noncomputable def npArgminGo : List NpVal → NpVal → ℕ → ℕ → ℕ
  | [], _, bi, _ => bi
  | x :: xs, b, bi, ci =>
    if (npIsNan x && !npIsNan b) || npLtb x b then npArgminGo xs x ci (ci + 1)
    else npArgminGo xs b bi (ci + 1)

/-- Model of `np.argmin` on a vector of NumPy floats: index of the first NaN if any,
else index of the first minimum. -/
noncomputable def npArgmin : List NpVal → ℕ
  | [] => 0
  | x :: xs => npArgminGo xs x 0 1

/-- Model of `np.dot` of two 1-D arrays. -/
def dot (a b : List ℝ) : ℝ := (a.zipWith (fun x y => x * y) b).sum

/-- One entry of `np.sqrt(2 - 2 * np.dot(...))` as the source computes it in
both `SeqMatching._compute_diff_matrix` and
`SingleImageMatching.localize_descriptor`: there is no `max(0, ·)` clamp, so
a radicand that is negative produces NaN. -/
noncomputable def unitDist (a b : List ℝ) : NpVal :=
  let r : ℝ := 2 - 2 * dot a b
  if r < 0 then .nan else .fin (Real.sqrt r)

/-- Refinement-comparison definition following the spec's words (§4.1):
`D[i,j] = sqrt(max(0, 2 − 2·dot(ref_i, query_j)))`, clamped before the
square root, hence total and non-negative. -/
noncomputable def specUnitDist (a b : List ℝ) : ℝ :=
  Real.sqrt (max 0 (2 - 2 * dot a b))

/-- Refinement-comparison definition following the spec's words: the N×L
clamped difference matrix. -/
noncomputable def specDiffMatrix (refs qs : List (List ℝ)) : List (List ℝ) :=
  refs.map (fun r => qs.map (fun q => specUnitDist r q))

namespace SeqMatching

/-- Model of `SeqMatching._compute_diff_matrix`:
`D = np.sqrt(2 - 2 * np.dot(self.map_descriptors, query_descriptors.transpose()))`. -/
noncomputable def compute_diff_matrix (map_descriptors query_descriptors : List (List ℝ)) :
    List (List NpVal) :=
  map_descriptors.map (fun r => query_descriptors.map (fun q => unitDist r q))

/-- Model of `SeqMatching._enhance_contrast`: per reference row `i`, normalise each
column of `D` by the mean and standard deviation over the row window
`[max(i - wContrast/2, 0), min(i + wContrast/2 + 1, nref - 1))` (the `ℕ`
subtraction `i - w2` is exactly the `max(…, 0)` clamp). -/
noncomputable def enhance_contrast (wContrast : ℕ) (D : List (List NpVal)) :
    List (List NpVal) :=
  let nref := D.length
  let w2 := wContrast / 2
  (List.range nref).map (fun i =>
    let idx_lower := i - w2
    let idx_upper := min (i + w2 + 1) (nref - 1)
    let window := (D.drop idx_lower).take (idx_upper - idx_lower)
    (D.getD i []).mapIdx (fun j d =>
      let col := window.map (fun row => row.getD j .nan)
      npDiv (npSub d (npMean col)) (npStd col)))

/-- Path entries of the line search, NumPy-float tier. -/
noncomputable def pathEntries (D : List (List NpVal)) (vel : ℝ) (i : ℕ) :
    List ℕ → Except SMError (List NpVal)
  | [] => .ok []
  | t :: ts => do
    let row ← pyIndex D ⌊(i : ℝ) + vel * (t : ℝ)⌋
    let x ← pyIndex row (t : ℤ)
    let rest ← pathEntries D vel i ts
    .ok (x :: rest)

/-- Per-start-index aggregate differences for one velocity, NumPy-float
tier. -/
noncomputable def velCosts (D : List (List NpVal)) (L : ℕ) (vel : ℝ) :
    List ℕ → Except SMError (List NpVal)
  | [] => .ok []
  | i :: is => do
    let es ← pathEntries D vel i (List.range L)
    let rest ← velCosts D L vel is
    .ok (npSum es :: rest)

/-- Velocity loop, NumPy-float tier; note `Dsum < optD` is IEEE `<`, so a
NaN cost never displaces the accumulator. -/
noncomputable def velLoop (D : List (List NpVal)) (L : ℕ) (refs : List ℕ)
    (optD : List NpVal) : List ℝ → Except SMError (List NpVal)
  | [] => .ok optD
  | v :: vs => do
    let costs ← velCosts D L v refs
    velLoop D L refs (optD.zipWith (fun o c => if npLtb c o then c else o) costs) vs

/-- Model of `SeqMatching._score_ref_templates`, NumPy-float tier.  `optD` is
initialised to `np.inf`; `np.empty` of a negative size raises
`ValueError`. -/
noncomputable def score_ref_templates (vMin vMax : ℝ) (numVel : ℕ)
    (D : List (List NpVal)) : Except SMError (List NpVal) :=
  let N := D.length
  let L := (D.getD 0 []).length
  let velocities := linspace vMin vMax (numVel + 1)
  let maxInd : ℤ := npInt ((N : ℝ) - 1 - vMax * (L : ℝ))
  if maxInd < 0 then .error .valueErrorNegativeDimensions
  else velLoop D L (List.range maxInd.toNat) (List.replicate maxInd.toNat .inf) velocities

/-- Model of `SeqMatching._locate_best_match`, NumPy-float tier. -/
noncomputable def locate_best_match (matchWindow : ℕ) (S : List NpVal) :
    Except SMError (ℕ × NpVal) :=
  if S.isEmpty then .error .valueErrorEmptyArgmin
  else
    let iOpt := npArgmin S
    let iWinL := iOpt - matchWindow / 2
    let iWinU := min (iOpt + matchWindow / 2) S.length
    match S.take iWinL ++ S.drop iWinU with
    | [] => .error .valueErrorEmptyMin
    | o :: os =>
      let optOutside := os.foldl (fun acc y => if npLtb y acc then y else acc) o
      if npLtb (.fin 0) optOutside then .ok (iOpt, npDiv (S.getD iOpt .nan) optOutside)
      else .ok (iOpt, npDiv optOutside (S.getD iOpt .nan))

/-- Model of `SeqMatching.localize`: difference matrix, optional contrast
enhancement, velocity-search scoring, best-match selection, and lookup of
the proposal pose. -/
noncomputable def localize {P : Type} [Inhabited P] (map_poses : List P)
    (map_descriptors : List (List ℝ)) (wContrast numVel : ℕ) (vMin vMax : ℝ)
    (matchWindow : ℕ) (enhance : Bool) (query_descriptors : List (List ℝ)) :
    Except SMError (P × NpVal) := do
  let D0 := compute_diff_matrix map_descriptors query_descriptors
  let D := if enhance then enhance_contrast wContrast D0 else D0
  let scores ← score_ref_templates vMin vMax numVel D
  let best ← locate_best_match matchWindow scores
  .ok (map_poses.getD best.1 default, best.2)

end SeqMatching

namespace SingleImageMatching

/-- Model of `SingleImageMatching.localize_descriptor`: distances from every
reference descriptor to one query descriptor, nearest pose and its raw
distance. -/
noncomputable def localize_descriptor {P : Type} [Inhabited P] (map_poses : List P)
    (map_descriptors : List (List ℝ)) (query_descriptor : List ℝ) : P × NpVal :=
  let dists := map_descriptors.map (fun r => unitDist r query_descriptor)
  let idx := npArgmin dists
  (map_poses.getD idx default, dists.getD idx .nan)

/-- Model of `SingleImageMatching.localize`: delegates to `localize_descriptor` on
`query_descriptors[0]`, the first descriptor of the query window. -/
noncomputable def localize {P : Type} [Inhabited P] (map_poses : List P)
    (map_descriptors : List (List ℝ)) (query_descriptors : List (List ℝ)) : P × NpVal :=
  localize_descriptor map_poses map_descriptors (query_descriptors.getD 0 [])

end SingleImageMatching

/-- Order embedding of the non-NaN NumPy values into the extended reals,
used to transfer argmin reasoning from the exact tier. -/
def toER : NpVal → EReal
  | .fin x => (x : EReal)
  | .nan => 0
  | .inf => ⊤
  | .ninf => ⊥

/-! ## Lemmas about the exact-tier argmin and min folds -/

namespace SeqMatchingExact

section ArgminMinLemmas

variable {α : Type} [LinearOrder α] [Inhabited α]

theorem argminGo_eq (xs : List α) : ∀ (b : α) (bi ci : ℕ),
    argminGo xs b bi ci =
      if xs.minimum < (b : WithTop α) then ci + firstArgmin xs else bi := by
  induction xs with
  | nil => intro b bi ci; simp [argminGo, List.minimum_nil]
  | cons x xs ih =>
    intro b bi ci
    by_cases hxb : x < b
    · rw [argminGo, if_pos hxb, ih]
      have hcond : (x :: xs).minimum < (b : WithTop α) := by
        rw [List.minimum_cons]
        exact lt_of_le_of_lt inf_le_left (by exact_mod_cast hxb)
      rw [if_pos hcond]
      by_cases hxm : xs.minimum < (x : WithTop α)
      · rw [if_pos hxm, firstArgmin, if_neg (not_le.mpr hxm)]
        omega
      · rw [if_neg hxm, firstArgmin, if_pos (not_lt.mp hxm)]
        omega
    · rw [argminGo, if_neg hxb, ih]
      have hxb' : (b : WithTop α) ≤ (x : WithTop α) := by exact_mod_cast not_lt.mp hxb
      by_cases hm : xs.minimum < (b : WithTop α)
      · have hcond : (x :: xs).minimum < (b : WithTop α) := by
          rw [List.minimum_cons]
          exact lt_of_le_of_lt inf_le_right hm
        rw [if_pos hm, if_pos hcond, firstArgmin,
          if_neg (not_le.mpr (lt_of_lt_of_le hm hxb'))]
        omega
      · have hcond : ¬ (x :: xs).minimum < (b : WithTop α) := by
          rw [List.minimum_cons]
          simp only [inf_lt_iff, not_or]
          exact ⟨not_lt.mpr hxb', hm⟩
        rw [if_neg hm, if_neg hcond]

theorem npArgmin_eq_firstArgmin (l : List α) : npArgmin l = firstArgmin l := by
  cases l with
  | nil => rfl
  | cons x xs =>
    rw [npArgmin, argminGo_eq, firstArgmin]
    by_cases hxm : (x : WithTop α) ≤ xs.minimum
    · rw [if_neg (not_lt.mpr hxm), if_pos hxm]
    · rw [if_pos (not_le.mp hxm), if_neg hxm]
      omega

theorem firstArgmin_lt_length (l : List α) (h : l ≠ []) : firstArgmin l < l.length := by
  induction l with
  | nil => exact absurd rfl h
  | cons x xs ih =>
    rw [firstArgmin]
    by_cases hxm : (x : WithTop α) ≤ xs.minimum
    · rw [if_pos hxm]; simp
    · rw [if_neg hxm]
      have hne : xs ≠ [] := by
        rintro rfl
        exact hxm (by simp [List.minimum_nil])
      have := ih hne
      simpa using Nat.succ_lt_succ this

theorem firstArgmin_minimum (l : List α) (h : l ≠ []) :
    (l.getD (firstArgmin l) default : WithTop α) = l.minimum := by
  induction l with
  | nil => exact absurd rfl h
  | cons x xs ih =>
    rw [firstArgmin]
    by_cases hxm : (x : WithTop α) ≤ xs.minimum
    · rw [if_pos hxm]
      simp [List.minimum_cons, inf_eq_left.mpr hxm]
    · rw [if_neg hxm]
      have hne : xs ≠ [] := by
        rintro rfl
        exact hxm (by simp [List.minimum_nil])
      have hlt := not_le.mp hxm
      simp only [List.getD_cons_succ]
      rw [ih hne, List.minimum_cons, inf_eq_right.mpr hlt.le]

theorem firstArgmin_strict (l : List α) : ∀ j < firstArgmin l,
    l.minimum < (l.getD j default : WithTop α) := by
  induction l with
  | nil => intro j hj; simp [firstArgmin] at hj
  | cons x xs ih =>
    intro j hj
    rw [firstArgmin] at hj
    by_cases hxm : (x : WithTop α) ≤ xs.minimum
    · rw [if_pos hxm] at hj; omega
    · rw [if_neg hxm] at hj
      have hlt := not_le.mp hxm
      have hmin : (x :: xs).minimum = xs.minimum := by
        rw [List.minimum_cons, inf_eq_right.mpr hlt.le]
      cases j with
      | zero => rw [hmin]; simpa using hlt
      | succ m =>
        rw [hmin]
        simp only [List.getD_cons_succ]
        exact ih m (by omega)

theorem npArgmin_lt_length (l : List α) (h : l ≠ []) : npArgmin l < l.length := by
  rw [npArgmin_eq_firstArgmin]; exact firstArgmin_lt_length l h

theorem npArgmin_minimum (l : List α) (h : l ≠ []) :
    (l.getD (npArgmin l) default : WithTop α) = l.minimum := by
  rw [npArgmin_eq_firstArgmin]; exact firstArgmin_minimum l h

theorem npArgmin_le (l : List α) (h : l ≠ []) (j : ℕ) (hj : j < l.length) :
    l.getD (npArgmin l) default ≤ l.getD j default := by
  have h1 := npArgmin_minimum l h
  have h2 : l.minimum ≤ (l.getD j default : WithTop α) := by
    rw [List.getD_eq_getElem l default hj]
    exact List.minimum_le_of_mem' (l.getElem_mem hj)
  exact_mod_cast h1 ▸ h2

theorem npArgmin_strict (l : List α) (h : l ≠ []) (j : ℕ) (hj : j < npArgmin l) :
    l.getD (npArgmin l) default < l.getD j default := by
  have h1 := npArgmin_minimum l h
  have h2 := firstArgmin_strict l j (npArgmin_eq_firstArgmin l ▸ hj)
  rw [← h1] at h2
  exact_mod_cast h2

theorem pymin_spec (x : α) (xs : List α) :
    pymin x xs ∈ x :: xs ∧ ∀ y ∈ x :: xs, pymin x xs ≤ y := by
  induction xs generalizing x with
  | nil => simp [pymin]
  | cons y ys ih =>
    by_cases hyx : y < x
    · have hstep : pymin x (y :: ys) = pymin y ys := by
        rw [pymin, pymin, List.foldl_cons, if_pos hyx]
      obtain ⟨hmem, hle⟩ := ih y
      refine ⟨?_, ?_⟩
      · rw [hstep]
        rcases List.mem_cons.mp hmem with h | h
        · rw [h]; exact List.mem_cons_of_mem _ (List.mem_cons_self _ _)
        · exact List.mem_cons_of_mem _ (List.mem_cons_of_mem _ h)
      · intro z hz
        rw [hstep]
        rcases List.mem_cons.mp hz with rfl | hz'
        · exact le_trans (hle _ (List.mem_cons_self _ _)) hyx.le
        · exact hle _ hz'
    · have hstep : pymin x (y :: ys) = pymin x ys := by
        rw [pymin, pymin, List.foldl_cons, if_neg hyx]
      obtain ⟨hmem, hle⟩ := ih x
      refine ⟨?_, ?_⟩
      · rw [hstep]
        rcases List.mem_cons.mp hmem with h | h
        · rw [h]; exact List.mem_cons_self _ _
        · exact List.mem_cons_of_mem _ (List.mem_cons_of_mem _ h)
      · intro z hz
        rw [hstep]
        rcases List.mem_cons.mp hz with rfl | hz'
        · exact hle _ (List.mem_cons_self _ _)
        · rcases List.mem_cons.mp hz' with rfl | hz''
          · exact le_trans (hle _ (List.mem_cons_self _ _)) (not_lt.mp hyx)
          · exact hle _ (List.mem_cons_of_mem _ hz'')

end ArgminMinLemmas

end SeqMatchingExact

/-! ## Lemmas about `npInt`, `linspace` and `pyIndex` -/

theorem npInt_of_one_le {α : Type} [LinearOrderedField α] [FloorRing α] {x : α}
    (h : 1 ≤ npInt x) : npInt x = ⌊x⌋ ∧ 0 ≤ x := by
  by_cases h0 : 0 ≤ x
  · exact ⟨if_pos h0, h0⟩
  · exfalso
    rw [npInt, if_neg h0] at h
    have : ⌈x⌉ ≤ (0 : ℤ) := Int.ceil_le.mpr (by push_cast; exact le_of_lt (lt_of_not_ge h0))
    omega

theorem linspace_length {α : Type} [LinearOrderedField α] (a b : α) (n : ℕ) :
    (linspace a b n).length = n := by
  rw [linspace, List.length_map, List.length_range]

theorem linspace_first {α : Type} [LinearOrderedField α] (a b : α) {n : ℕ}
    (hn : 1 ≤ n) : (linspace a b n).getD 0 0 = a := by
  cases n with
  | zero => omega
  | succ m =>
    have h0 : 0 < (linspace a b (m + 1)).length := by rw [linspace_length]; omega
    rw [List.getD_eq_getElem _ _ h0]
    simp only [linspace, List.getElem_map, List.getElem_range]
    simp

theorem linspace_last {α : Type} [LinearOrderedField α] (a b : α) {n : ℕ}
    (hn : 2 ≤ n) : (linspace a b n).getD (n - 1) 0 = b := by
  have hlt : n - 1 < (linspace a b n).length := by rw [linspace_length]; omega
  rw [List.getD_eq_getElem _ _ hlt]
  simp only [linspace, List.getElem_map, List.getElem_range]
  have hne : ((n : α) - 1) ≠ 0 := by
    have : (2 : α) ≤ (n : α) := by exact_mod_cast hn
    linarith
  have hcast : ((n - 1 : ℕ) : α) = (n : α) - 1 := by
    have : (1 : ℕ) ≤ n := by omega
    push_cast [this]
    ring
  rw [hcast, mul_comm, div_mul_cancel₀ _ hne]
  ring

theorem linspace_mem_le {α : Type} [LinearOrderedField α] {a b : α}
    (hab : a ≤ b) {n : ℕ} (hn : 2 ≤ n) {v : α}
    (hv : v ∈ linspace a b n) : a ≤ v ∧ v ≤ b := by
  simp only [linspace, List.mem_map, List.mem_range] at hv
  obtain ⟨k, hk, rfl⟩ := hv
  have h2n : (2 : α) ≤ (n : α) := by exact_mod_cast hn
  have hd : (0 : α) ≤ (b - a) / ((n : α) - 1) := by
    apply div_nonneg (sub_nonneg.mpr hab)
    linarith
  constructor
  · have : 0 ≤ (k : α) * ((b - a) / ((n : α) - 1)) :=
      mul_nonneg (Nat.cast_nonneg k) hd
    linarith
  · have hk' : (k : α) ≤ (n : α) - 1 := by
      have h1 : (k : ℕ) + 1 ≤ n := hk
      have h2 : ((k + 1 : ℕ) : α) ≤ ((n : ℕ) : α) := Nat.cast_le.mpr h1
      push_cast at h2
      linarith
    have hne : ((n : α) - 1) ≠ 0 := by linarith
    have h3 : (k : α) * ((b - a) / ((n : α) - 1)) ≤
        ((n : α) - 1) * ((b - a) / ((n : α) - 1)) :=
      mul_le_mul_of_nonneg_right hk' hd
    rw [mul_comm ((n : α) - 1), div_mul_cancel₀ _ hne] at h3
    linarith

theorem pyIndex_ok {β : Type} [Inhabited β] (l : List β) (i : ℤ)
    (h0 : 0 ≤ i) (h1 : i < l.length) :
    pyIndex l i = .ok (l.getD i.toNat default) := by
  simp [pyIndex, not_lt.mpr h0, h0, h1]

theorem except_ok_bind {ε β γ : Type} (a : β) (f : β → Except ε γ) :
    (Except.ok a : Except ε β) >>= f = f a := rfl

theorem except_error_bind {ε β γ : Type} (e : ε) (f : β → Except ε γ) :
    (Except.error e : Except ε β) >>= f = .error e := rfl

/-! ## Exact-tier scorer lemmas -/

namespace SeqMatchingExact

section ScorerLemmas

variable {α : Type} [LinearOrderedField α] [FloorRing α] [Inhabited α]

theorem path_row_bounds (N L : ℕ) {vMin vMax : α} {numVel : ℕ}
    (hvMin : 0 ≤ vMin) (hab : vMin ≤ vMax) (hnv : 1 ≤ numVel)
    (hmax : 1 ≤ npInt ((N : α) - 1 - vMax * (L : α)))
    (i : ℕ) (hi : i < (npInt ((N : α) - 1 - vMax * (L : α))).toNat)
    (v : α) (hv : v ∈ linspace vMin vMax (numVel + 1))
    (t : ℕ) (ht : t < L) :
    0 ≤ ⌊(i : α) + v * (t : α)⌋ ∧ ⌊(i : α) + v * (t : α)⌋ < (N : ℤ) := by
  obtain ⟨hfloor, hx⟩ := npInt_of_one_le hmax
  have hvb := linspace_mem_le hab (by omega) hv
  have hv0 : 0 ≤ v := le_trans hvMin hvb.1
  have hvMax0 : 0 ≤ vMax := le_trans hvMin hab
  constructor
  · rw [Int.le_floor]
    push_cast
    have : 0 ≤ v * (t : α) := mul_nonneg hv0 (Nat.cast_nonneg t)
    have : (0 : α) ≤ (i : α) := Nat.cast_nonneg i
    linarith
  · rw [Int.floor_lt]
    have h1 : (i : ℤ) < npInt ((N : α) - 1 - vMax * (L : α)) := by
      have h2 : ((npInt ((N : α) - 1 - vMax * (L : α))).toNat : ℤ) =
          npInt ((N : α) - 1 - vMax * (L : α)) := Int.toNat_of_nonneg (by omega)
      omega
    have hfl : ((npInt ((N : α) - 1 - vMax * (L : α)) : ℤ) : α) ≤
        (N : α) - 1 - vMax * (L : α) := by
      rw [hfloor]; exact Int.floor_le _
    have hiM : (i : α) ≤ (N : α) - 1 - vMax * (L : α) - 1 := by
      have h3 : ((i : ℤ) : α) + 1 ≤
          ((npInt ((N : α) - 1 - vMax * (L : α)) : ℤ) : α) := by
        exact_mod_cast Int.add_one_le_iff.mpr h1
      push_cast at h3
      linarith
    have ht' : (t : α) ≤ (L : α) - 1 := by
      have h4 : (t : ℕ) + 1 ≤ L := ht
      have h5 : ((t + 1 : ℕ) : α) ≤ ((L : ℕ) : α) := Nat.cast_le.mpr h4
      push_cast at h5
      linarith
    have hv4 : v * (t : α) ≤ vMax * (t : α) :=
      mul_le_mul_of_nonneg_right hvb.2 (Nat.cast_nonneg t)
    have hv5 : vMax * (t : α) ≤ vMax * ((L : α) - 1) :=
      mul_le_mul_of_nonneg_left ht' hvMax0
    have hexp : vMax * ((L : α) - 1) = vMax * (L : α) - vMax := by ring
    push_cast
    linarith

theorem pathEntries_ok (D : List (List α)) (L : ℕ)
    (hrect : ∀ row ∈ D, row.length = L) (vel : α) (i : ℕ) (ts : List ℕ)
    (hb : ∀ t ∈ ts, t < L ∧ 0 ≤ ⌊(i : α) + vel * (t : α)⌋ ∧
      ⌊(i : α) + vel * (t : α)⌋ < (D.length : ℤ)) :
    pathEntries D vel i ts =
      .ok (ts.map (fun (t : ℕ) =>
        (D.getD (⌊(i : α) + vel * (t : α)⌋).toNat []).getD t default)) := by
  induction ts with
  | nil => rfl
  | cons t ts ih =>
    obtain ⟨htL, h0, h1⟩ := hb t (List.mem_cons_self _ _)
    have hkN : (⌊(i : α) + vel * (t : α)⌋).toNat < D.length := by omega
    have hrowlen : (D.getD (⌊(i : α) + vel * (t : α)⌋).toNat []).length = L := by
      rw [List.getD_eq_getElem _ _ hkN]
      exact hrect _ (D.getElem_mem hkN)
    have hdefault : (default : List α) = [] := rfl
    rw [pathEntries, pyIndex_ok D _ h0 h1, except_ok_bind, hdefault,
      pyIndex_ok _ (t : ℤ) (Int.ofNat_nonneg t)
        (by rw [hrowlen]; exact_mod_cast htL), except_ok_bind,
      ih (fun u hu => hb u (List.mem_cons_of_mem _ hu)), except_ok_bind]
    rw [List.map_cons]
    simp [Int.toNat_natCast]

theorem velCosts_ok (D : List (List α)) (L : ℕ)
    (hrect : ∀ row ∈ D, row.length = L) (vel : α) (refs : List ℕ)
    (hb : ∀ i ∈ refs, ∀ t ∈ List.range L, t < L ∧
      0 ≤ ⌊(i : α) + vel * (t : α)⌋ ∧
      ⌊(i : α) + vel * (t : α)⌋ < (D.length : ℤ)) :
    velCosts D L vel refs =
      .ok (refs.map (fun (i : ℕ) =>
        ((List.range L).map (fun (t : ℕ) =>
          (D.getD (⌊(i : α) + vel * (t : α)⌋).toNat []).getD t default)).sum)) := by
  induction refs with
  | nil => rfl
  | cons i is ih =>
    rw [velCosts, pathEntries_ok D L hrect vel i (List.range L)
      (hb i (List.mem_cons_self _ _)), except_ok_bind,
      ih (fun u hu => hb u (List.mem_cons_of_mem _ hu)), except_ok_bind]
    rw [List.map_cons]

theorem ite_lt_min (o : WithTop α) (c : α) :
    (if (c : WithTop α) < o then (c : WithTop α) else o) = min o (c : WithTop α) := by
  rcases lt_or_le (c : WithTop α) o with h | h
  · rw [if_pos h, min_eq_right h.le]
  · rw [if_neg (not_lt.mpr h), min_eq_left h]

theorem velLoop_ok (D : List (List α)) (L : ℕ) (refs : List ℕ) (g : α → ℕ → α) :
    ∀ (vs : List α), (∀ v ∈ vs, velCosts D L v refs = .ok (refs.map (g v))) →
    ∀ (optD : List (WithTop α)), optD.length = refs.length →
    ∃ res, velLoop D L refs optD vs = .ok res ∧ res.length = optD.length ∧
      ∀ k, k < optD.length →
        res.getD k ⊤ = (vs.map (fun (v : α) => g v (refs.getD k 0))).foldl
          (fun (a : WithTop α) (c : α) => min a (c : WithTop α)) (optD.getD k ⊤) := by
  intro vs
  induction vs with
  | nil =>
    intro _ optD _
    exact ⟨optD, rfl, rfl, fun k _ => rfl⟩
  | cons v vs ih =>
    intro hcosts optD hlen
    have hstep : velLoop D L refs optD (v :: vs) =
        velLoop D L refs
          (optD.zipWith (fun (o : WithTop α) (c : α) =>
            if (c : WithTop α) < o then (c : WithTop α) else o)
            (refs.map (g v))) vs := by
      rw [velLoop, hcosts v (List.mem_cons_self _ _), except_ok_bind]
    have hlen' : (optD.zipWith (fun (o : WithTop α) (c : α) =>
        if (c : WithTop α) < o then (c : WithTop α) else o)
        (refs.map (g v))).length = refs.length := by
      rw [List.length_zipWith, List.length_map, hlen]
      exact min_self _
    obtain ⟨res, hres, hreslen, hresget⟩ :=
      ih (fun u hu => hcosts u (List.mem_cons_of_mem _ hu)) _ hlen'
    refine ⟨res, by rw [hstep]; exact hres, by rw [hreslen, hlen', hlen], ?_⟩
    intro k hk
    have hk' : k < (optD.zipWith (fun (o : WithTop α) (c : α) =>
        if (c : WithTop α) < o then (c : WithTop α) else o)
        (refs.map (g v))).length := by rw [hlen']; omega
    have hkrefs : k < refs.length := by omega
    have hkmap : k < (refs.map (g v)).length := by simpa using hkrefs
    rw [hresget k (by rw [hlen']; omega)]
    rw [List.getD_eq_getElem _ _ hk', List.getElem_zipWith]
    rw [List.map_cons, List.foldl_cons]
    congr 1
    rw [List.getElem_map, ite_lt_min]
    congr 2
    · exact (List.getD_eq_getElem optD ⊤ (by omega)).symm
    · rw [List.getD_eq_getElem refs 0 hkrefs]

theorem foldl_min_coe (cs : List α) : ∀ (a : WithTop α),
    cs.foldl (fun (acc : WithTop α) (c : α) => min acc (c : WithTop α)) a =
      min a cs.minimum := by
  induction cs with
  | nil =>
    intro a
    rw [List.foldl_nil, List.minimum_nil, min_eq_left le_top]
  | cons c cs ih =>
    intro a
    rw [List.foldl_cons, ih, List.minimum_cons, ← min_assoc]

end ScorerLemmas

end SeqMatchingExact

/-! ## NumPy-float tier lemmas -/

theorem npArgminGo_lt (xs : List NpVal) : ∀ (b : NpVal) (bi ci : ℕ), bi < ci →
    npArgminGo xs b bi ci < ci + xs.length := by
  induction xs with
  | nil =>
    intro b bi ci h
    rw [npArgminGo, List.length_nil]
    omega
  | cons x xs ih =>
    intro b bi ci h
    rw [npArgminGo, List.length_cons]
    by_cases hc : ((npIsNan x && !npIsNan b) || npLtb x b) = true
    · rw [if_pos hc]
      have := ih x ci (ci + 1) (by omega)
      omega
    · rw [if_neg hc]
      have := ih b bi (ci + 1) (by omega)
      omega

theorem npArgminNp_lt_length (l : List NpVal) (h : l ≠ []) : npArgmin l < l.length := by
  cases l with
  | nil => exact absurd rfl h
  | cons x xs =>
    rw [npArgmin, List.length_cons]
    have := npArgminGo_lt xs x 0 1 (by omega)
    omega

theorem npLtb_eq_toER {x y : NpVal} (hx : npIsNan x = false) (hy : npIsNan y = false) :
    npLtb x y = decide (toER x < toER y) := by
  cases x with
  | nan => simp [npIsNan] at hx
  | fin a =>
    cases y with
    | nan => simp [npIsNan] at hy
    | fin b =>
      show (decide (a < b) : Bool) = decide ((a : EReal) < (b : EReal))
      simp [EReal.coe_lt_coe_iff]
    | inf =>
      show true = decide ((a : EReal) < ⊤)
      exact (decide_eq_true (EReal.coe_lt_top a)).symm
    | ninf =>
      show false = decide ((a : EReal) < ⊥)
      exact (decide_eq_false not_lt_bot).symm
  | inf =>
    cases y with
    | nan => simp [npIsNan] at hy
    | fin b =>
      show false = decide ((⊤ : EReal) < (b : EReal))
      exact (decide_eq_false not_top_lt).symm
    | inf =>
      show false = decide ((⊤ : EReal) < ⊤)
      exact (decide_eq_false (lt_irrefl _)).symm
    | ninf =>
      show false = decide ((⊤ : EReal) < ⊥)
      exact (decide_eq_false not_top_lt).symm
  | ninf =>
    cases y with
    | nan => simp [npIsNan] at hy
    | fin b =>
      show true = decide ((⊥ : EReal) < (b : EReal))
      exact (decide_eq_true (EReal.bot_lt_coe b)).symm
    | inf =>
      show true = decide ((⊥ : EReal) < ⊤)
      exact (decide_eq_true bot_lt_top).symm
    | ninf =>
      show false = decide ((⊥ : EReal) < ⊥)
      exact (decide_eq_false (lt_irrefl _)).symm

theorem npArgminGo_toER (xs : List NpVal) : ∀ (b : NpVal) (bi ci : ℕ),
    npIsNan b = false → (∀ x ∈ xs, npIsNan x = false) →
    npArgminGo xs b bi ci = SeqMatchingExact.argminGo (xs.map toER) (toER b) bi ci := by
  induction xs with
  | nil => intro b bi ci _ _; rfl
  | cons x xs ih =>
    intro b bi ci hb hxs
    have hx := hxs x (List.mem_cons_self _ _)
    have hrest : ∀ u ∈ xs, npIsNan u = false :=
      fun u hu => hxs u (List.mem_cons_of_mem _ hu)
    rw [npArgminGo, List.map_cons, SeqMatchingExact.argminGo]
    by_cases h : toER x < toER b
    · have hcond : ((npIsNan x && !npIsNan b) || npLtb x b) = true := by
        rw [hx, npLtb_eq_toER hx hb]
        simp [h]
      rw [if_pos hcond, if_pos h]
      exact ih x ci (ci + 1) hx hrest
    · have hcond : ¬ ((npIsNan x && !npIsNan b) || npLtb x b) = true := by
        rw [hx, npLtb_eq_toER hx hb]
        simp [h]
      rw [if_neg hcond, if_neg h]
      exact ih b bi (ci + 1) hb hrest

theorem npArgmin_toER (l : List NpVal) (hl : ∀ x ∈ l, npIsNan x = false) :
    npArgmin l = SeqMatchingExact.npArgmin (l.map toER) := by
  cases l with
  | nil => rfl
  | cons x xs =>
    rw [npArgmin, List.map_cons, SeqMatchingExact.npArgmin]
    exact npArgminGo_toER xs x 0 1 (hl x (List.mem_cons_self _ _))
      (fun u hu => hl u (List.mem_cons_of_mem _ hu))

theorem toER_getD_map (l : List NpVal) (m : ℕ) (hm : m < l.length) :
    (l.map toER).getD m default = toER (l.getD m .nan) := by
  rw [List.getD_eq_getElem _ _ (by simpa using hm), List.getElem_map,
    List.getD_eq_getElem _ _ hm]

theorem npArgmin_not_lt (l : List NpVal) (hl : ∀ x ∈ l, npIsNan x = false)
    (hne : l ≠ []) (j : ℕ) (hj : j < l.length) :
    npLtb (l.getD j .nan) (l.getD (npArgmin l) .nan) = false := by
  have hmap : l.map toER ≠ [] := by simpa using hne
  have hk : npArgmin l < l.length := npArgminNp_lt_length l hne
  have hxj : npIsNan (l.getD j .nan) = false := by
    rw [List.getD_eq_getElem _ _ hj]
    exact hl _ (l.getElem_mem hj)
  have hxk : npIsNan (l.getD (npArgmin l) .nan) = false := by
    rw [List.getD_eq_getElem _ _ hk]
    exact hl _ (l.getElem_mem hk)
  rw [npLtb_eq_toER hxj hxk]
  have hle := SeqMatchingExact.npArgmin_le (l.map toER) hmap j (by simpa using hj)
  rw [← npArgmin_toER l hl, toER_getD_map l j hj,
    toER_getD_map l (npArgmin l) hk] at hle
  exact decide_eq_false (not_lt.mpr hle)

theorem velCostsNp_length (D : List (List NpVal)) (L : ℕ) (vel : ℝ) :
    ∀ (refs : List ℕ) (costs : List NpVal),
    SeqMatching.velCosts D L vel refs = .ok costs → costs.length = refs.length := by
  intro refs
  induction refs with
  | nil =>
    intro costs h
    rw [SeqMatching.velCosts] at h
    cases h
    rfl
  | cons i is ih =>
    intro costs h
    rw [SeqMatching.velCosts] at h
    cases hpe : SeqMatching.pathEntries D vel i (List.range L) with
    | error e => rw [hpe, except_error_bind] at h; exact Except.noConfusion h
    | ok es =>
      rw [hpe, except_ok_bind] at h
      cases hvc : SeqMatching.velCosts D L vel is with
      | error e => rw [hvc, except_error_bind] at h; exact Except.noConfusion h
      | ok rest =>
        rw [hvc, except_ok_bind] at h
        cases h
        simp [ih rest hvc]

theorem velLoopNp_length (D : List (List NpVal)) (L : ℕ) (refs : List ℕ) :
    ∀ (vs : List ℝ) (optD res : List NpVal),
    SeqMatching.velLoop D L refs optD vs = .ok res → optD.length = refs.length →
    res.length = refs.length := by
  intro vs
  induction vs with
  | nil =>
    intro optD res h hlen
    rw [SeqMatching.velLoop] at h
    cases h
    exact hlen
  | cons v vs ih =>
    intro optD res h hlen
    rw [SeqMatching.velLoop] at h
    cases hvc : SeqMatching.velCosts D L v refs with
    | error e => rw [hvc, except_error_bind] at h; exact Except.noConfusion h
    | ok costs =>
      rw [hvc, except_ok_bind] at h
      refine ih _ res h ?_
      rw [List.length_zipWith, hlen, velCostsNp_length D L v refs costs hvc]
      exact min_self _

theorem scoreNp_ok (vMin vMax : ℝ) (numVel : ℕ) (D : List (List NpVal))
    (scores : List NpVal)
    (h : SeqMatching.score_ref_templates vMin vMax numVel D = .ok scores) :
    0 ≤ npInt ((D.length : ℝ) - 1 - vMax * (((D.getD 0 []).length : ℕ) : ℝ)) ∧
    scores.length =
      (npInt ((D.length : ℝ) - 1 - vMax * (((D.getD 0 []).length : ℕ) : ℝ))).toNat := by
  rw [SeqMatching.score_ref_templates] at h
  by_cases hneg : npInt ((D.length : ℝ) - 1 - vMax * (((D.getD 0 []).length : ℕ) : ℝ)) < 0
  · rw [if_pos hneg] at h
    exact Except.noConfusion h
  · rw [if_neg hneg] at h
    refine ⟨not_lt.mp hneg, ?_⟩
    have := velLoopNp_length D ((D.getD 0 []).length)
      (List.range (npInt ((D.length : ℝ) - 1 -
        vMax * (((D.getD 0 []).length : ℕ) : ℝ))).toNat) _ _ _ h (by simp)
    simpa using this

theorem locateNp_ok (matchWindow : ℕ) (S : List NpVal) (i : ℕ) (mu : NpVal)
    (h : SeqMatching.locate_best_match matchWindow S = .ok (i, mu)) :
    S ≠ [] ∧ i = npArgmin S := by
  simp only [SeqMatching.locate_best_match] at h
  by_cases hemp : S.isEmpty
  · rw [if_pos hemp] at h
    exact Except.noConfusion h
  · rw [if_neg hemp] at h
    refine ⟨by simpa [List.isEmpty_iff] using hemp, ?_⟩
    rcases hout : S.take (npArgmin S - matchWindow / 2) ++
        S.drop (min (npArgmin S + matchWindow / 2) S.length) with _ | ⟨o, os⟩
    · rw [hout] at h
      exact Except.noConfusion h
    · rw [hout] at h
      have h' : (if npLtb (NpVal.fin 0)
            (os.foldl (fun acc y => if npLtb y acc then y else acc) o) = true then
          Except.ok (npArgmin S, npDiv (S.getD (npArgmin S) NpVal.nan)
            (os.foldl (fun acc y => if npLtb y acc then y else acc) o))
        else Except.ok (npArgmin S,
            npDiv (os.foldl (fun acc y => if npLtb y acc then y else acc) o)
              (S.getD (npArgmin S) NpVal.nan))) = Except.ok (i, mu) := h
      by_cases hpos : npLtb (NpVal.fin 0)
          (os.foldl (fun acc y => if npLtb y acc then y else acc) o) = true
      · rw [if_pos hpos] at h'
        injection h' with hpair
        exact (congrArg Prod.fst hpair).symm
      · rw [if_neg hpos] at h'
        injection h' with hpair
        exact (congrArg Prod.fst hpair).symm

theorem enhance_contrast_entry (wContrast : ℕ) (D : List (List NpVal)) (i j : ℕ)
    (hi : i < D.length) (hj : j < (D.getD i []).length) :
    ((SeqMatching.enhance_contrast wContrast D).getD i []).getD j .nan =
      npDiv (npSub ((D.getD i []).getD j .nan)
          (npMean ((List.range' (i - wContrast / 2)
              (min (i + wContrast / 2 + 1) (D.length - 1) - (i - wContrast / 2))).map
            (fun r => (D.getD r []).getD j .nan))))
        (npStd ((List.range' (i - wContrast / 2)
            (min (i + wContrast / 2 + 1) (D.length - 1) - (i - wContrast / 2))).map
          (fun r => (D.getD r []).getD j .nan))) := by
  have hcol : (((D.drop (i - wContrast / 2)).take
        (min (i + wContrast / 2 + 1) (D.length - 1) - (i - wContrast / 2))).map
        (fun row => row.getD j .nan)) =
      ((List.range' (i - wContrast / 2)
          (min (i + wContrast / 2 + 1) (D.length - 1) - (i - wContrast / 2))).map
        (fun r => (D.getD r []).getD j .nan)) := by
    apply List.ext_getElem
    · have hup : min (i + wContrast / 2 + 1) (D.length - 1) ≤ D.length := by omega
      simp only [List.length_map, List.length_take, List.length_drop, List.length_range']
      omega
    · intro m h1 h2
      simp only [List.length_map, List.length_take, List.length_drop] at h1
      have hm : i - wContrast / 2 + m < D.length := by omega
      simp only [List.getElem_map, List.getElem_take, List.getElem_drop,
        List.getElem_range', one_mul]
      rw [List.getD_eq_getElem D [] hm]
  have hlen : i < (List.range D.length).length := by simpa using hi
  have hlen2 : i < ((List.range D.length).map (fun i =>
      ((D.getD i []).mapIdx (fun j d =>
        npDiv (npSub d (npMean (((D.drop (i - wContrast / 2)).take
            (min (i + wContrast / 2 + 1) (D.length - 1) - (i - wContrast / 2))).map
          (fun row => row.getD j .nan))))
          (npStd (((D.drop (i - wContrast / 2)).take
            (min (i + wContrast / 2 + 1) (D.length - 1) - (i - wContrast / 2))).map
          (fun row => row.getD j .nan))))))).length := by
    simpa using hi
  rw [SeqMatching.enhance_contrast]
  rw [List.getD_eq_getElem _ [] (by simpa using hi)]
  rw [List.getElem_map]
  rw [List.getElem_range]
  rw [List.getD_eq_getElem _ NpVal.nan (by simpa using hj)]
  rw [List.getElem_mapIdx]
  rw [hcol]
  rw [List.getD_eq_getElem _ _ hj]

theorem npSum_fin_foldl (c : ℝ) : ∀ (n : ℕ) (a : ℝ),
    (List.replicate n (NpVal.fin c)).foldl npAdd (.fin a) = .fin (a + n * c) := by
  intro n
  induction n with
  | zero =>
    intro a
    simp
  | succ m ih =>
    intro a
    rw [List.replicate_succ, List.foldl_cons]
    show (List.replicate m (NpVal.fin c)).foldl npAdd (.fin (a + c)) = _
    rw [ih]
    congr 1
    push_cast
    ring

theorem npSum_replicate_fin (n : ℕ) (c : ℝ) :
    npSum (List.replicate n (NpVal.fin c)) = .fin (n * c) := by
  rw [npSum, npSum_fin_foldl c n 0, zero_add]

theorem npMean_const (col : List NpVal) (c : ℝ) (hne : col ≠ [])
    (hconst : ∀ x ∈ col, x = NpVal.fin c) : npMean col = .fin c := by
  have hrep : col = List.replicate col.length (NpVal.fin c) :=
    List.eq_replicate_of_mem hconst
  have hn : (col.length : ℝ) ≠ 0 := by
    have h0 : col.length ≠ 0 := fun h => hne (List.eq_nil_of_length_eq_zero h)
    exact_mod_cast h0
  rw [npMean]
  conv in npSum col => rw [hrep]
  rw [npSum_replicate_fin]
  show (if ((col.length : ℝ)) = 0 then _ else NpVal.fin ((col.length : ℝ) * c / (col.length : ℝ))) = _
  rw [if_neg hn]
  rw [mul_comm, mul_div_assoc, div_self hn, mul_one]

theorem npStd_const (col : List NpVal) (c : ℝ) (hne : col ≠ [])
    (hconst : ∀ x ∈ col, x = NpVal.fin c) : npStd col = .fin 0 := by
  have hn : (col.length : ℝ) ≠ 0 := by
    have h0 : col.length ≠ 0 := fun h => hne (List.eq_nil_of_length_eq_zero h)
    exact_mod_cast h0
  simp only [npStd]
  rw [npMean_const col c hne hconst]
  have hdev : col.map (fun x => npMul (npSub x (NpVal.fin c)) (npSub x (NpVal.fin c))) =
      List.replicate col.length (NpVal.fin ((c + -c) * (c + -c))) := by
    conv in col.map _ => rw [List.eq_replicate_of_mem hconst]
    rw [List.map_replicate]
    rfl
  rw [hdev, npSum_replicate_fin]
  have hv : ((col.length : ℝ) * ((c + -c) * (c + -c))) = 0 := by ring
  rw [hv]
  show npSqrt (if ((col.length : ℝ)) = 0 then
      (if (0 : ℝ) = 0 then NpVal.nan else if 0 < (0 : ℝ) then NpVal.inf else NpVal.ninf)
    else NpVal.fin ((0 : ℝ) / (col.length : ℝ))) = NpVal.fin 0
  rw [if_neg hn, zero_div]
  show (if (0 : ℝ) < 0 then NpVal.nan else NpVal.fin (Real.sqrt 0)) = NpVal.fin 0
  rw [if_neg (lt_irrefl (0 : ℝ)), Real.sqrt_zero]

theorem npDiv_fin_zero_not_fin (d : NpVal) (c : ℝ) :
    npIsFin (npDiv (npSub d (NpVal.fin c)) (NpVal.fin 0)) = false := by
  cases d with
  | fin a =>
    show npIsFin (npDiv (NpVal.fin (a + -c)) (NpVal.fin 0)) = false
    show npIsFin (if (0 : ℝ) = 0 then
        (if a + -c = 0 then NpVal.nan else if 0 < a + -c then NpVal.inf else NpVal.ninf)
      else NpVal.fin ((a + -c) / 0)) = false
    rw [if_pos rfl]
    by_cases h1 : a + -c = 0
    · rw [if_pos h1]; rfl
    · rw [if_neg h1]
      by_cases h2 : 0 < a + -c
      · rw [if_pos h2]; rfl
      · rw [if_neg h2]; rfl
  | nan => rfl
  | inf =>
    show npIsFin (if (0 : ℝ) ≤ 0 then NpVal.inf else NpVal.ninf) = false
    rw [if_pos le_rfl]
    rfl
  | ninf =>
    show npIsFin (if (0 : ℝ) ≤ 0 then NpVal.ninf else NpVal.inf) = false
    rw [if_pos le_rfl]
    rfl

theorem scoreNp_neg_error (vMin vMax : ℝ) (numVel : ℕ) (D : List (List NpVal))
    (h : npInt ((D.length : ℝ) - 1 - vMax * ((D.getD 0 []).length : ℝ)) < 0) :
    SeqMatching.score_ref_templates vMin vMax numVel D =
      .error .valueErrorNegativeDimensions := by
  simp only [SeqMatching.score_ref_templates]
  rw [if_pos h]

/-! ## Claim C2 -/

/-- C2, counterexample.  With N = 10 references, vMax = 2 and L = 10 query
descriptors (`maxIndex = int(10 - 1 - 2·10) = -11 < 1`), `localize` does not
fail with a named `InvalidConfiguration` error: the difference matrix is
built, and the run then dies inside `_score_ref_templates` with the generic
`ValueError` that `np.empty` raises on a negative size.  No configuration
validation exists in `SeqMatching.__init__`. -/
theorem C2_counterexample :
    SeqMatching.localize (List.range 10) (List.replicate 10 [(1 : ℝ)]) 10 1 1 2 20 false
        (List.replicate 10 [(1 : ℝ)]) =
      .error .valueErrorNegativeDimensions ∧
    (Except.error SMError.valueErrorNegativeDimensions : Except SMError (ℕ × NpVal)) ≠
      .error .invalidConfiguration := by
  constructor
  · have hscore : SeqMatching.score_ref_templates 1 2 1
        (SeqMatching.compute_diff_matrix (List.replicate 10 [(1 : ℝ)])
          (List.replicate 10 [(1 : ℝ)])) = .error .valueErrorNegativeDimensions := by
      apply scoreNp_neg_error
      have hN : (SeqMatching.compute_diff_matrix (List.replicate 10 [(1 : ℝ)])
          (List.replicate 10 [(1 : ℝ)])).length = 10 := by
        simp [SeqMatching.compute_diff_matrix]
      have hL : ((SeqMatching.compute_diff_matrix (List.replicate 10 [(1 : ℝ)])
          (List.replicate 10 [(1 : ℝ)])).getD 0 []).length = 10 := by
        simp [SeqMatching.compute_diff_matrix, List.map_replicate]
      rw [hN, hL]
      have harg : ((10 : ℝ) - 1 - 2 * ((10 : ℕ) : ℝ)) = ((-11 : ℤ) : ℝ) := by norm_num
      rw [npInt]
      rw [show ((10 : ℕ) : ℝ) - 1 - 2 * ((10 : ℕ) : ℝ) = ((-11 : ℤ) : ℝ) by norm_num]
      rw [if_neg (by norm_num), Int.ceil_intCast]
      norm_num
    simp only [SeqMatching.localize, Bool.false_eq_true, if_false]
    rw [hscore, except_error_bind]
  · simp

/-- C2, amended.  The claim as stated is false: nothing in the matcher
checks the configuration eagerly and no `InvalidConfiguration` error exists.
Amended: whenever `int(N - 1 - vMax·L) < 0` the scorer — reached only after
the difference matrix has been built — fails with the generic
`ValueError: negative dimensions are not allowed` raised by
`np.empty(max_ind)`. -/
theorem C2_amended (vMin vMax : ℝ) (numVel : ℕ) (D : List (List NpVal))
    (h : npInt ((D.length : ℝ) - 1 - vMax * ((D.getD 0 []).length : ℝ)) < 0) :
    SeqMatching.score_ref_templates vMin vMax numVel D =
      .error .valueErrorNegativeDimensions :=
  scoreNp_neg_error vMin vMax numVel D h

/-- C2, witness for the amended theorem at a concrete configuration
(N = 1, L = 1, vMax = 5). -/
theorem C2_witness :
    npInt ((([[NpVal.fin 0]] : List (List NpVal)).length : ℝ) - 1 -
        5 * ((([[NpVal.fin 0]] : List (List NpVal)).getD 0 []).length : ℝ)) < 0 ∧
    SeqMatching.score_ref_templates 1 5 1 [[NpVal.fin 0]] =
      .error .valueErrorNegativeDimensions := by
  have h : npInt ((([[NpVal.fin 0]] : List (List NpVal)).length : ℝ) - 1 -
      5 * ((([[NpVal.fin 0]] : List (List NpVal)).getD 0 []).length : ℝ)) < 0 := by
    simp only [List.length_cons, List.length_nil, List.getD_cons_zero]
    rw [npInt]
    rw [show ((0 + 1 : ℕ) : ℝ) - 1 - 5 * ((0 + 1 : ℕ) : ℝ) = ((-5 : ℤ) : ℝ) by norm_num]
    rw [if_neg (by norm_num), Int.ceil_intCast]
    norm_num
  exact ⟨h, C2_amended 1 5 1 [[NpVal.fin 0]] h⟩

/-! ## Claim C6 -/

/-- C6, counterexample.  On the score vector `[5]` with `matchWindow = 2`
the exclusion window spans the whole vector, and the selector fails with the
generic `ValueError` that Python's built-in `min` raises on an empty
sequence — not with a distinct, named `InsufficientCandidates` error (no
such error exists anywhere in the source). -/
theorem C6_counterexample :
    SeqMatchingExact.locate_best_match 2 [(5 : ℚ)] = .error .valueErrorEmptyMin ∧
    SMError.valueErrorEmptyMin ≠ SMError.insufficientCandidates := by
  refine ⟨?_, by decide⟩
  have hargmin : SeqMatchingExact.npArgmin [(5 : ℚ)] = 0 := rfl
  simp only [SeqMatchingExact.locate_best_match]
  rw [if_neg (by simp)]
  rw [hargmin]
  rfl

/-- C6, amended.  The claim as stated is false: when the outside comparison
set is empty the selector does fail before returning a result, but with the
generic empty-sequence `ValueError` from `min`, not with a named
`InsufficientCandidates` error.  Amended: for every nonempty score vector on
which the exclusion window spans the whole vector, `_locate_best_match`
raises the generic `ValueError` modelled by `valueErrorEmptyMin`. -/
theorem C6_amended {α : Type} [LinearOrderedField α] [Inhabited α] (matchWindow : ℕ)
    (S : List α) (hS : S ≠ [])
    (hout : S.take (SeqMatchingExact.npArgmin S - matchWindow / 2) ++
        S.drop (min (SeqMatchingExact.npArgmin S + matchWindow / 2) S.length) = []) :
    SeqMatchingExact.locate_best_match matchWindow S = .error .valueErrorEmptyMin := by
  simp only [SeqMatchingExact.locate_best_match]
  rw [if_neg (by simpa using hS)]
  rw [hout]

/-- C6, witness for the amended theorem: `S = [3, 4]`, `matchWindow = 6`. -/
theorem C6_witness :
    (([(3 : ℚ), 4] : List ℚ) ≠ [] ∧
      ([(3 : ℚ), 4] : List ℚ).take (SeqMatchingExact.npArgmin [(3 : ℚ), 4] - 6 / 2) ++
        ([(3 : ℚ), 4] : List ℚ).drop
          (min (SeqMatchingExact.npArgmin [(3 : ℚ), 4] + 6 / 2) 2) = []) ∧
    SeqMatchingExact.locate_best_match 6 [(3 : ℚ), 4] = .error .valueErrorEmptyMin := by
  have h1 : ([(3 : ℚ), 4] : List ℚ) ≠ [] := by simp
  have hargmin : SeqMatchingExact.npArgmin [(3 : ℚ), 4] = 0 := by
    simp only [SeqMatchingExact.npArgmin, SeqMatchingExact.argminGo]
    norm_num
  have h2 : ([(3 : ℚ), 4] : List ℚ).take (SeqMatchingExact.npArgmin [(3 : ℚ), 4] - 6 / 2) ++
      ([(3 : ℚ), 4] : List ℚ).drop
        (min (SeqMatchingExact.npArgmin [(3 : ℚ), 4] + 6 / 2) 2) = [] := by
    rw [hargmin]
    rfl
  exact ⟨⟨h1, h2⟩, C6_amended 6 [(3 : ℚ), 4] h1 (by simpa using h2)⟩

/-! ## Claim C5 -/

/-- C5, confirmed.  For every score vector `S` of length ≥ 1 whose outside
comparison set `S[:iOpt - matchWindow/2] ++ S[iOpt + matchWindow/2:]` (with
the `max(·,0)`/`min(·,M)` clamps given by `ℕ` subtraction and `min`) is
nonempty, the selector returns `(iOpt, confidence)` where `iOpt` is the
argmin of `S` with ties broken by the lowest index, and, with `m` the
minimum of the outside set, `confidence = S[iOpt]/m` when `0 < m` and
`confidence = m/S[iOpt]` otherwise. -/
theorem C5_confirmed {α : Type} [LinearOrderedField α] [Inhabited α] (matchWindow : ℕ)
    (S : List α) (hlen : 1 ≤ S.length)
    (hout : S.take (SeqMatchingExact.npArgmin S - matchWindow / 2) ++
        S.drop (min (SeqMatchingExact.npArgmin S + matchWindow / 2) S.length) ≠ []) :
    ∃ i c, SeqMatchingExact.locate_best_match matchWindow S = .ok (i, c) ∧
      i < S.length ∧
      (∀ j, j < S.length → S.getD i default ≤ S.getD j default) ∧
      (∀ j, j < i → S.getD i default < S.getD j default) ∧
      ∃ m, m ∈ S.take (i - matchWindow / 2) ++ S.drop (min (i + matchWindow / 2) S.length) ∧
        (∀ y ∈ S.take (i - matchWindow / 2) ++ S.drop (min (i + matchWindow / 2) S.length),
          m ≤ y) ∧
        c = if 0 < m then S.getD i default / m else m / S.getD i default := by
  have hS : S ≠ [] := by
    intro h
    rw [h] at hlen
    simp at hlen
  have hne : ¬ S.isEmpty = true := by simpa using hS
  rcases hm : S.take (SeqMatchingExact.npArgmin S - matchWindow / 2) ++
      S.drop (min (SeqMatchingExact.npArgmin S + matchWindow / 2) S.length) with _ | ⟨o, os⟩
  · exact absurd hm hout
  · have hmem0 := SeqMatchingExact.pymin_spec o os
    rw [← hm] at hmem0
    obtain ⟨hminmem, hminle⟩ := hmem0
    by_cases hpos : 0 < SeqMatchingExact.pymin o os
    · refine ⟨SeqMatchingExact.npArgmin S,
        S.getD (SeqMatchingExact.npArgmin S) default / SeqMatchingExact.pymin o os,
        ?_, SeqMatchingExact.npArgmin_lt_length S hS,
        fun j hj => SeqMatchingExact.npArgmin_le S hS j hj,
        fun j hj => SeqMatchingExact.npArgmin_strict S hS j hj,
        SeqMatchingExact.pymin o os, hminmem, hminle, (if_pos hpos).symm⟩
      simp only [SeqMatchingExact.locate_best_match]
      rw [if_neg hne, hm]
      show (if 0 < SeqMatchingExact.pymin o os then
          Except.ok (SeqMatchingExact.npArgmin S,
            S.getD (SeqMatchingExact.npArgmin S) default / SeqMatchingExact.pymin o os)
        else Except.ok (SeqMatchingExact.npArgmin S,
            SeqMatchingExact.pymin o os / S.getD (SeqMatchingExact.npArgmin S) default)) =
        Except.ok (SeqMatchingExact.npArgmin S,
          S.getD (SeqMatchingExact.npArgmin S) default / SeqMatchingExact.pymin o os)
      rw [if_pos hpos]
    · refine ⟨SeqMatchingExact.npArgmin S,
        SeqMatchingExact.pymin o os / S.getD (SeqMatchingExact.npArgmin S) default,
        ?_, SeqMatchingExact.npArgmin_lt_length S hS,
        fun j hj => SeqMatchingExact.npArgmin_le S hS j hj,
        fun j hj => SeqMatchingExact.npArgmin_strict S hS j hj,
        SeqMatchingExact.pymin o os, hminmem, hminle, (if_neg hpos).symm⟩
      simp only [SeqMatchingExact.locate_best_match]
      rw [if_neg hne, hm]
      show (if 0 < SeqMatchingExact.pymin o os then
          Except.ok (SeqMatchingExact.npArgmin S,
            S.getD (SeqMatchingExact.npArgmin S) default / SeqMatchingExact.pymin o os)
        else Except.ok (SeqMatchingExact.npArgmin S,
            SeqMatchingExact.pymin o os / S.getD (SeqMatchingExact.npArgmin S) default)) =
        Except.ok (SeqMatchingExact.npArgmin S,
          SeqMatchingExact.pymin o os / S.getD (SeqMatchingExact.npArgmin S) default)
      rw [if_neg hpos]

/-- C5, witness at `S = [1, 2] : List ℚ`, `matchWindow = 2`. -/
theorem C5_witness :
    (1 ≤ ([(1 : ℚ), 2] : List ℚ).length ∧
      ([(1 : ℚ), 2] : List ℚ).take (SeqMatchingExact.npArgmin [(1 : ℚ), 2] - 2 / 2) ++
        ([(1 : ℚ), 2] : List ℚ).drop
          (min (SeqMatchingExact.npArgmin [(1 : ℚ), 2] + 2 / 2) 2) ≠ []) ∧
    (∃ i c, SeqMatchingExact.locate_best_match 2 [(1 : ℚ), 2] = .ok (i, c) ∧
      i < ([(1 : ℚ), 2] : List ℚ).length ∧
      (∀ j, j < ([(1 : ℚ), 2] : List ℚ).length →
        ([(1 : ℚ), 2] : List ℚ).getD i default ≤ ([(1 : ℚ), 2] : List ℚ).getD j default) ∧
      (∀ j, j < i →
        ([(1 : ℚ), 2] : List ℚ).getD i default < ([(1 : ℚ), 2] : List ℚ).getD j default) ∧
      ∃ m, m ∈ ([(1 : ℚ), 2] : List ℚ).take (i - 2 / 2) ++
          ([(1 : ℚ), 2] : List ℚ).drop (min (i + 2 / 2) 2) ∧
        (∀ y ∈ ([(1 : ℚ), 2] : List ℚ).take (i - 2 / 2) ++
            ([(1 : ℚ), 2] : List ℚ).drop (min (i + 2 / 2) 2), m ≤ y) ∧
        c = if 0 < m then ([(1 : ℚ), 2] : List ℚ).getD i default / m
          else m / ([(1 : ℚ), 2] : List ℚ).getD i default) := by
  have hargmin : SeqMatchingExact.npArgmin [(1 : ℚ), 2] = 0 := by
    simp only [SeqMatchingExact.npArgmin, SeqMatchingExact.argminGo]
    norm_num
  have h1 : 1 ≤ ([(1 : ℚ), 2] : List ℚ).length := by simp
  have h2 : ([(1 : ℚ), 2] : List ℚ).take (SeqMatchingExact.npArgmin [(1 : ℚ), 2] - 2 / 2) ++
      ([(1 : ℚ), 2] : List ℚ).drop
        (min (SeqMatchingExact.npArgmin [(1 : ℚ), 2] + 2 / 2) 2) ≠ [] := by
    rw [hargmin]
    simp
  exact ⟨⟨h1, h2⟩, C5_confirmed 2 [(1 : ℚ), 2] h1 h2⟩

/-! ## Claim C4 -/

/-- C4, confirmed.  Under a valid configuration (`0 < vMin ≤ vMax`,
`numVel ≥ 1`) with `maxIndex = int(N - 1 - vMax·L) ≥ 1`, every row index
`floor(i + v·t)` used by the velocity-search scorer — for every candidate
start `i < maxIndex`, every tested velocity `v` of the `linspace`
discretisation and every time step `t < L` — is nonnegative and never
exceeds `N - 1`, so every access `D[r(t), t]` is within the bounds of the
N×L matrix. -/
theorem C4_confirmed {α : Type} [LinearOrderedField α] [FloorRing α] [Inhabited α] (N L : ℕ)
    (vMin vMax : α) (numVel : ℕ)
    (hvMin : 0 < vMin) (hab : vMin ≤ vMax) (hnv : 1 ≤ numVel)
    (hmax : 1 ≤ npInt ((N : α) - 1 - vMax * (L : α)))
    (i : ℕ) (hi : i < (npInt ((N : α) - 1 - vMax * (L : α))).toNat)
    (v : α) (hv : v ∈ linspace vMin vMax (numVel + 1))
    (t : ℕ) (ht : t < L) :
    0 ≤ ⌊(i : α) + v * (t : α)⌋ ∧ ⌊(i : α) + v * (t : α)⌋ ≤ (N : ℤ) - 1 := by
  have h := SeqMatchingExact.path_row_bounds N L hvMin.le hab hnv hmax i hi v hv t ht
  exact ⟨h.1, by omega⟩

/-- C4, witness at `N = 5`, `L = 1`, `vMin = vMax = 1`, `numVel = 1`,
`i = 0`, `v = 1`, `t = 0` over `ℚ`. -/
theorem C4_witness :
    0 ≤ ⌊((0 : ℕ) : ℚ) + 1 * ((0 : ℕ) : ℚ)⌋ ∧
    ⌊((0 : ℕ) : ℚ) + 1 * ((0 : ℕ) : ℚ)⌋ ≤ ((5 : ℕ) : ℤ) - 1 := by
  have hnp : npInt (((5 : ℕ) : ℚ) - 1 - 1 * ((1 : ℕ) : ℚ)) = 3 := by
    rw [npInt]
    rw [show ((5 : ℕ) : ℚ) - 1 - 1 * ((1 : ℕ) : ℚ) = ((3 : ℤ) : ℚ) by norm_num]
    rw [if_pos (by norm_num), Int.floor_intCast]
  have hmax : 1 ≤ npInt (((5 : ℕ) : ℚ) - 1 - 1 * ((1 : ℕ) : ℚ)) := by
    rw [hnp]; norm_num
  have hi : 0 < (npInt (((5 : ℕ) : ℚ) - 1 - 1 * ((1 : ℕ) : ℚ))).toNat := by
    rw [hnp]; norm_num
  have hv : (1 : ℚ) ∈ linspace (1 : ℚ) 1 (1 + 1) := by
    simp only [linspace, List.mem_map, List.mem_range]
    exact ⟨0, by norm_num, by norm_num⟩
  exact C4_confirmed 5 1 (1 : ℚ) 1 1 (by norm_num) le_rfl le_rfl hmax 0 hi 1 hv 0
    (by norm_num)

/-! ## Claim C3 -/

/-- C3, confirmed.  For every rectangular N×L distance matrix `D` and valid
configuration (`0 < vMin ≤ vMax`, `numVel ≥ 1`) with
`maxIndex = int(N - 1 - vMax·L) ≥ 1`, the velocities are the `numVel + 1`
evenly spaced `linspace` samples with both endpoints `vMin` and `vMax`
included, and the scorer returns a vector of length exactly `maxIndex`
whose entry `i` is the minimum over those velocities of
`sum over t < L of D[floor(i + v·t), t]` (the `⊤` of `WithTop` models the
`np.inf` initialisation, and every returned entry is an attained finite
minimum). -/
theorem C3_confirmed {α : Type} [LinearOrderedField α] [FloorRing α] [Inhabited α]
    (vMin vMax : α) (numVel : ℕ) (D : List (List α)) (L : ℕ)
    (hrect : ∀ row ∈ D, row.length = L)
    (hL : (D.getD 0 []).length = L)
    (hvMin : 0 < vMin) (hab : vMin ≤ vMax) (hnv : 1 ≤ numVel)
    (hmax : 1 ≤ npInt ((D.length : α) - 1 - vMax * (L : α))) :
    (linspace vMin vMax (numVel + 1)).length = numVel + 1 ∧
    (linspace vMin vMax (numVel + 1)).getD 0 0 = vMin ∧
    (linspace vMin vMax (numVel + 1)).getD numVel 0 = vMax ∧
    ∃ scores, SeqMatchingExact.score_ref_templates vMin vMax numVel D = .ok scores ∧
      scores.length = (npInt ((D.length : α) - 1 - vMax * (L : α))).toNat ∧
      ∀ i, i < scores.length →
        scores.getD i ⊤ =
          ((linspace vMin vMax (numVel + 1)).map (fun (v : α) =>
            ((List.range L).map (fun (t : ℕ) =>
              (D.getD (⌊(i : α) + v * (t : α)⌋).toNat []).getD t default)).sum)).minimum := by
  refine ⟨linspace_length vMin vMax (numVel + 1),
    linspace_first vMin vMax (by omega),
    by simpa using @linspace_last α _ vMin vMax (numVel + 1) (by omega), ?_⟩
  have hb : ∀ v ∈ linspace vMin vMax (numVel + 1),
      ∀ i ∈ List.range (npInt ((D.length : α) - 1 - vMax * (L : α))).toNat,
      ∀ t ∈ List.range L,
      t < L ∧ 0 ≤ ⌊(i : α) + v * (t : α)⌋ ∧
        ⌊(i : α) + v * (t : α)⌋ < (D.length : ℤ) := by
    intro v hv i hi t ht
    rw [List.mem_range] at hi ht
    have h := SeqMatchingExact.path_row_bounds D.length L hvMin.le hab hnv hmax i hi v hv t ht
    exact ⟨ht, h.1, h.2⟩
  have hcosts : ∀ v ∈ linspace vMin vMax (numVel + 1),
      SeqMatchingExact.velCosts D L v
          (List.range (npInt ((D.length : α) - 1 - vMax * (L : α))).toNat) =
        .ok ((List.range (npInt ((D.length : α) - 1 - vMax * (L : α))).toNat).map
          ((fun (v : α) (i : ℕ) =>
            ((List.range L).map (fun (t : ℕ) =>
              (D.getD (⌊(i : α) + v * (t : α)⌋).toNat []).getD t default)).sum) v)) :=
    fun v hv => SeqMatchingExact.velCosts_ok D L hrect v _ (hb v hv)
  obtain ⟨res, hres, hlen_res, hget⟩ :=
    SeqMatchingExact.velLoop_ok D L
      (List.range (npInt ((D.length : α) - 1 - vMax * (L : α))).toNat)
      (fun (v : α) (i : ℕ) =>
        ((List.range L).map (fun (t : ℕ) =>
          (D.getD (⌊(i : α) + v * (t : α)⌋).toNat []).getD t default)).sum)
      (linspace vMin vMax (numVel + 1)) hcosts
      (List.replicate (npInt ((D.length : α) - 1 - vMax * (L : α))).toNat ⊤) (by simp)
  have hscore : SeqMatchingExact.score_ref_templates vMin vMax numVel D =
      SeqMatchingExact.velLoop D L
        (List.range (npInt ((D.length : α) - 1 - vMax * (L : α))).toNat)
        (List.replicate (npInt ((D.length : α) - 1 - vMax * (L : α))).toNat ⊤)
        (linspace vMin vMax (numVel + 1)) := by
    simp only [SeqMatchingExact.score_ref_templates]
    rw [hL]
    rw [if_neg (by omega)]
  refine ⟨res, by rw [hscore]; exact hres, by simpa using hlen_res, ?_⟩
  intro i hi
  have hiM : i < (npInt ((D.length : α) - 1 - vMax * (L : α))).toNat := by
    rw [hlen_res] at hi
    simpa using hi
  have h1 := hget i (by rw [List.length_replicate]; exact hiM)
  have hrange : (List.range (npInt ((D.length : α) - 1 - vMax * (L : α))).toNat).getD i 0 = i := by
    rw [List.getD_eq_getElem _ _ (by simpa using hiM), List.getElem_range]
  have hrepl : (List.replicate (npInt ((D.length : α) - 1 - vMax * (L : α))).toNat
      (⊤ : WithTop α)).getD i ⊤ = ⊤ := by
    rw [List.getD_eq_getElem _ _ (by rw [List.length_replicate]; exact hiM),
      List.getElem_replicate]
  rw [hrange, hrepl] at h1
  rw [h1, SeqMatchingExact.foldl_min_coe, min_eq_right le_top]

/-- C3, witness at the 4×1 matrix `[[0],[2],[2],[2]] : List (List ℚ)` with
`vMin = vMax = 1`, `numVel = 1` (so `maxIndex = 2`). -/
theorem C3_witness :
    (linspace (1 : ℚ) 1 (1 + 1)).length = 1 + 1 ∧
    (linspace (1 : ℚ) 1 (1 + 1)).getD 0 0 = 1 ∧
    (linspace (1 : ℚ) 1 (1 + 1)).getD 1 0 = 1 ∧
    ∃ scores, SeqMatchingExact.score_ref_templates (1 : ℚ) 1 1
        [[0], [2], [2], [2]] = .ok scores ∧
      scores.length = (npInt ((([[(0 : ℚ)], [2], [2], [2]] : List (List ℚ)).length : ℚ) -
        1 - 1 * ((1 : ℕ) : ℚ))).toNat ∧
      ∀ i, i < scores.length →
        scores.getD i ⊤ =
          ((linspace (1 : ℚ) 1 (1 + 1)).map (fun (v : ℚ) =>
            ((List.range 1).map (fun (t : ℕ) =>
              (([[(0 : ℚ)], [2], [2], [2]] : List (List ℚ)).getD
                (⌊(i : ℚ) + v * (t : ℚ)⌋).toNat []).getD t default)).sum)).minimum := by
  have hrect : ∀ row ∈ ([[(0 : ℚ)], [2], [2], [2]] : List (List ℚ)), row.length = 1 := by
    intro row hr
    simp only [List.mem_cons, List.not_mem_nil, or_false] at hr
    rcases hr with rfl | rfl | rfl | rfl <;> rfl
  have hL : (([[(0 : ℚ)], [2], [2], [2]] : List (List ℚ)).getD 0 []).length = 1 := rfl
  have hmax : 1 ≤ npInt ((([[(0 : ℚ)], [2], [2], [2]] : List (List ℚ)).length : ℚ) -
      1 - 1 * ((1 : ℕ) : ℚ)) := by
    rw [npInt, show ((([[(0 : ℚ)], [2], [2], [2]] : List (List ℚ)).length : ℚ) -
      1 - 1 * ((1 : ℕ) : ℚ)) = ((2 : ℤ) : ℚ) by norm_num]
    rw [if_pos (by norm_num), Int.floor_intCast]
    norm_num
  exact C3_confirmed 1 1 1 [[0], [2], [2], [2]] 1 hrect hL (by norm_num) le_rfl le_rfl hmax

/-! ## Claim C1 -/

/-- C1, counterexample.  The source computes `np.sqrt(2 - 2*dot)` with no
`max(0, ·)` clamp: on the 1×1 descriptor pair `ref = [2]`, `query = [1]`
(radicand `2 - 2·2 = -2`), the difference-matrix builder yields NaN, not the
well-defined value `sqrt(max(0, -2)) = 0` that the claim asserts for every
entry. -/
theorem C1_counterexample :
    SeqMatching.compute_diff_matrix [[(2 : ℝ)]] [[(1 : ℝ)]] = [[NpVal.nan]] ∧
    specUnitDist [(2 : ℝ)] [(1 : ℝ)] = 0 ∧
    NpVal.nan ≠ NpVal.fin (specUnitDist [(2 : ℝ)] [(1 : ℝ)]) := by
  have h : unitDist [(2 : ℝ)] [(1 : ℝ)] = NpVal.nan := by
    simp only [unitDist, dot, List.zipWith_cons_cons, List.zipWith_nil_right,
      List.sum_cons, List.sum_nil]
    norm_num
  refine ⟨?_, ?_, by simp⟩
  · simp only [SeqMatching.compute_diff_matrix, List.map_cons, List.map_nil, h]
  · simp only [specUnitDist, dot, List.zipWith_cons_cons, List.zipWith_nil_right,
      List.sum_cons, List.sum_nil]
    norm_num

/-- C1, amended.  Both the difference-matrix builder and the single-image
matcher's distance vector compute the unclamped `sqrt(2 - 2·dot)` entrywise
(`unitDist`); an entry agrees with the spec's clamped formula exactly when
the radicand is nonnegative, and is NaN when the radicand is negative. -/
theorem C1_amended (refs qs : List (List ℝ)) (q : List ℝ) (i j : ℕ)
    (hi : i < refs.length) (hj : j < qs.length) :
    ((SeqMatching.compute_diff_matrix refs qs).getD i []).getD j .nan =
      unitDist (refs.getD i []) (qs.getD j []) ∧
    (refs.map (fun r => unitDist r q)).getD i .nan = unitDist (refs.getD i []) q ∧
    (0 ≤ 2 - 2 * dot (refs.getD i []) (qs.getD j []) →
      unitDist (refs.getD i []) (qs.getD j []) =
        .fin (specUnitDist (refs.getD i []) (qs.getD j []))) ∧
    (2 - 2 * dot (refs.getD i []) (qs.getD j []) < 0 →
      unitDist (refs.getD i []) (qs.getD j []) = .nan) := by
  refine ⟨?_, ?_, ?_, ?_⟩
  · rw [SeqMatching.compute_diff_matrix]
    rw [List.getD_eq_getElem _ [] (by simpa using hi), List.getElem_map]
    rw [List.getD_eq_getElem _ _ (by simpa using hj), List.getElem_map]
    rw [List.getD_eq_getElem refs [] hi, List.getD_eq_getElem qs [] hj]
  · rw [List.getD_eq_getElem _ _ (by simpa using hi), List.getElem_map,
      List.getD_eq_getElem refs [] hi]
  · intro h
    simp only [unitDist]
    rw [if_neg (not_lt.mpr h), specUnitDist, max_eq_right h]
  · intro h
    simp only [unitDist]
    rw [if_pos h]

/-- C1, witness for the amended theorem at `refs = [[1]]`, `qs = [[1]]`,
`i = j = 0` (radicand `0`). -/
theorem C1_witness :
    ((SeqMatching.compute_diff_matrix [[(1 : ℝ)]] [[(1 : ℝ)]]).getD 0 []).getD 0 .nan =
      unitDist (([[(1 : ℝ)]] : List (List ℝ)).getD 0 [])
        (([[(1 : ℝ)]] : List (List ℝ)).getD 0 []) ∧
    (([[(1 : ℝ)]] : List (List ℝ)).map (fun r => unitDist r [(1 : ℝ)])).getD 0 .nan =
      unitDist (([[(1 : ℝ)]] : List (List ℝ)).getD 0 []) [(1 : ℝ)] ∧
    (0 ≤ 2 - 2 * dot (([[(1 : ℝ)]] : List (List ℝ)).getD 0 [])
        (([[(1 : ℝ)]] : List (List ℝ)).getD 0 []) →
      unitDist (([[(1 : ℝ)]] : List (List ℝ)).getD 0 [])
          (([[(1 : ℝ)]] : List (List ℝ)).getD 0 []) =
        .fin (specUnitDist (([[(1 : ℝ)]] : List (List ℝ)).getD 0 [])
          (([[(1 : ℝ)]] : List (List ℝ)).getD 0 []))) ∧
    (2 - 2 * dot (([[(1 : ℝ)]] : List (List ℝ)).getD 0 [])
        (([[(1 : ℝ)]] : List (List ℝ)).getD 0 []) < 0 →
      unitDist (([[(1 : ℝ)]] : List (List ℝ)).getD 0 [])
          (([[(1 : ℝ)]] : List (List ℝ)).getD 0 []) = .nan) :=
  C1_amended [[(1 : ℝ)]] [[(1 : ℝ)]] [(1 : ℝ)] 0 0 (by norm_num) (by norm_num)

/-! ## Claim C7 -/

/-- C7, confirmed.  For every reference row `i` and query column `j`, the
enhancer computes `Enhanced[i,j] = (D[i,j] - mean) / std` where mean and
standard deviation are taken over column `j` of `D` restricted to the
half-open row window `[max(i - wContrast/2, 0), min(i + wContrast/2 + 1,
N - 1))` (the `ℕ` subtraction `i - wContrast/2` is the `max(·,0)` clamp);
in particular the upper bound `min(i + wContrast/2 + 1, N - 1)` excludes the
final reference row `N - 1` for every `i`. -/
theorem C7_confirmed (wContrast : ℕ) (D : List (List NpVal)) (i j : ℕ)
    (hi : i < D.length) (hj : j < (D.getD i []).length) :
    ((SeqMatching.enhance_contrast wContrast D).getD i []).getD j .nan =
      npDiv (npSub ((D.getD i []).getD j .nan)
          (npMean ((List.range' (i - wContrast / 2)
              (min (i + wContrast / 2 + 1) (D.length - 1) - (i - wContrast / 2))).map
            (fun r => (D.getD r []).getD j .nan))))
        (npStd ((List.range' (i - wContrast / 2)
            (min (i + wContrast / 2 + 1) (D.length - 1) - (i - wContrast / 2))).map
          (fun r => (D.getD r []).getD j .nan))) :=
  enhance_contrast_entry wContrast D i j hi hj

/-- C7, witness at `wContrast = 2`, `D = [[fin 0],[fin 2],[fin 9]]`,
`i = 0`, `j = 0` (window rows `[0, 2)`). -/
theorem C7_witness :
    ((SeqMatching.enhance_contrast 2
        [[NpVal.fin 0], [NpVal.fin 2], [NpVal.fin 9]]).getD 0 []).getD 0 .nan =
      npDiv (npSub ((([[NpVal.fin 0], [NpVal.fin 2], [NpVal.fin 9]] :
            List (List NpVal)).getD 0 []).getD 0 .nan)
          (npMean ((List.range' (0 - 2 / 2)
              (min (0 + 2 / 2 + 1) (([[NpVal.fin 0], [NpVal.fin 2], [NpVal.fin 9]] :
                List (List NpVal)).length - 1) - (0 - 2 / 2))).map
            (fun r => (([[NpVal.fin 0], [NpVal.fin 2], [NpVal.fin 9]] :
              List (List NpVal)).getD r []).getD 0 .nan))))
        (npStd ((List.range' (0 - 2 / 2)
            (min (0 + 2 / 2 + 1) (([[NpVal.fin 0], [NpVal.fin 2], [NpVal.fin 9]] :
              List (List NpVal)).length - 1) - (0 - 2 / 2))).map
          (fun r => (([[NpVal.fin 0], [NpVal.fin 2], [NpVal.fin 9]] :
            List (List NpVal)).getD r []).getD 0 .nan))) :=
  C7_confirmed 2 [[NpVal.fin 0], [NpVal.fin 2], [NpVal.fin 9]] 0 0
    (by norm_num) (by norm_num)

/-! ## Claim C8 -/

theorem enhance_entry_nonfinite (wContrast : ℕ) (D : List (List NpVal)) (i j : ℕ)
    (c : ℝ) (hi : i < D.length) (hj : j < (D.getD i []).length)
    (hne : (List.range' (i - wContrast / 2)
        (min (i + wContrast / 2 + 1) (D.length - 1) - (i - wContrast / 2))).map
      (fun r => (D.getD r []).getD j .nan) ≠ [])
    (hconst : ∀ x ∈ (List.range' (i - wContrast / 2)
        (min (i + wContrast / 2 + 1) (D.length - 1) - (i - wContrast / 2))).map
      (fun r => (D.getD r []).getD j .nan), x = NpVal.fin c) :
    npIsFin (((SeqMatching.enhance_contrast wContrast D).getD i []).getD j .nan) = false := by
  rw [enhance_contrast_entry wContrast D i j hi hj,
    npMean_const _ c hne hconst, npStd_const _ c hne hconst]
  exact npDiv_fin_zero_not_fin _ c

/-- C8, amended.  When the contrast window's column is a constant (finite)
neighborhood — zero standard deviation — the enhancer does produce a
non-finite value at `Enhanced[i,j]` (the counterexample shows it is not
always detectable downstream: the scorer only reads rows that some tested
path visits, so a degenerate entry in an unvisited row is silently dropped
and the caller receives fully finite output). -/
theorem C8_amended (wContrast : ℕ) (D : List (List NpVal)) (i j : ℕ) (c : ℝ)
    (hi : i < D.length) (hj : j < (D.getD i []).length)
    (hne : (List.range' (i - wContrast / 2)
        (min (i + wContrast / 2 + 1) (D.length - 1) - (i - wContrast / 2))).map
      (fun r => (D.getD r []).getD j .nan) ≠ [])
    (hconst : ∀ x ∈ (List.range' (i - wContrast / 2)
        (min (i + wContrast / 2 + 1) (D.length - 1) - (i - wContrast / 2))).map
      (fun r => (D.getD r []).getD j .nan), x = NpVal.fin c) :
    npStd ((List.range' (i - wContrast / 2)
        (min (i + wContrast / 2 + 1) (D.length - 1) - (i - wContrast / 2))).map
      (fun r => (D.getD r []).getD j .nan)) = .fin 0 ∧
    npIsFin (((SeqMatching.enhance_contrast wContrast D).getD i []).getD j .nan) = false :=
  ⟨npStd_const _ c hne hconst, enhance_entry_nonfinite wContrast D i j c hi hj hne hconst⟩

/-- C8, witness for the amended theorem: row `i = 2` of the 3×1 matrix
`[[fin 0],[fin 2],[fin 9]]` with `wContrast = 2` has the single-row window
`{row 1}`, a constant neighborhood. -/
theorem C8_witness :
    npStd ((List.range' (2 - 2 / 2)
        (min (2 + 2 / 2 + 1) (([[NpVal.fin 0], [NpVal.fin 2], [NpVal.fin 9]] :
          List (List NpVal)).length - 1) - (2 - 2 / 2))).map
      (fun r => (([[NpVal.fin 0], [NpVal.fin 2], [NpVal.fin 9]] :
        List (List NpVal)).getD r []).getD 0 .nan)) = .fin 0 ∧
    npIsFin (((SeqMatching.enhance_contrast 2
        [[NpVal.fin 0], [NpVal.fin 2], [NpVal.fin 9]]).getD 2 []).getD 0 .nan) = false := by
  have hcol : (List.range' (2 - 2 / 2)
      (min (2 + 2 / 2 + 1) (([[NpVal.fin 0], [NpVal.fin 2], [NpVal.fin 9]] :
        List (List NpVal)).length - 1) - (2 - 2 / 2))).map
      (fun r => (([[NpVal.fin 0], [NpVal.fin 2], [NpVal.fin 9]] :
        List (List NpVal)).getD r []).getD 0 .nan) = [NpVal.fin 2] := rfl
  exact C8_amended 2 [[NpVal.fin 0], [NpVal.fin 2], [NpVal.fin 9]] 2 0 2
    (by norm_num) (by norm_num)
    (by rw [hcol]; simp)
    (by rw [hcol]; intro x hx; simpa using hx)


/-- C8, counterexample.  Configuration `N = 3`, `L = 1`, `wContrast = 2`,
`vMin = vMax = 1`, `numVel = 1`, `matchWindow = 1`, distance matrix
`D = [[fin 0],[fin 2],[fin 9]]`: the contrast window of row 2 is the
constant single-row neighborhood `{row 1}` (standard deviation zero), so
`Enhanced[2,0] = +inf` is non-finite — yet the velocity search never visits
row 2, the scorer returns the fully finite `[fin (-1)]`, and the selector
returns the fully finite `(0, fin 1)`.  The degeneracy does not propagate to
the caller, refuting the claim that it always can be detected downstream. -/
theorem C8_counterexample :
    npStd [NpVal.fin 2] = .fin 0 ∧
    npIsFin (((SeqMatching.enhance_contrast 2
        [[NpVal.fin 0], [NpVal.fin 2], [NpVal.fin 9]]).getD 2 []).getD 0 .nan) = false ∧
    SeqMatching.enhance_contrast 2 [[NpVal.fin 0], [NpVal.fin 2], [NpVal.fin 9]] =
      [[NpVal.fin (-1)], [NpVal.fin 1], [NpVal.inf]] ∧
    SeqMatching.score_ref_templates 1 1 1
      [[NpVal.fin (-1)], [NpVal.fin 1], [NpVal.inf]] = .ok [NpVal.fin (-1)] ∧
    SeqMatching.locate_best_match 1 [NpVal.fin (-1)] = .ok (0, NpVal.fin 1) := by
  have hE : SeqMatching.enhance_contrast 2 [[NpVal.fin 0], [NpVal.fin 2], [NpVal.fin 9]] =
      [[NpVal.fin (-1)], [NpVal.fin 1], [NpVal.inf]] := by
    have hr3 : List.range 3 = [0, 1, 2] := rfl
    simp only [SeqMatching.enhance_contrast, hr3, List.map_cons, List.map_nil,
      List.length_cons, List.length_nil]
    norm_num [List.mapIdx_cons, List.mapIdx_nil, npMean, npStd, npSum, npDiv, npSub,
      npAdd, npNeg, npMul, npSqrt, Real.sqrt_one, Real.sqrt_zero]
  have hstd : npStd [NpVal.fin 2] = .fin 0 :=
    npStd_const [NpVal.fin 2] 2 (by simp) (by intro x hx; simpa using hx)
  have hnf : npIsFin (((SeqMatching.enhance_contrast 2
      [[NpVal.fin 0], [NpVal.fin 2], [NpVal.fin 9]]).getD 2 []).getD 0 .nan) = false := by
    rw [hE]
    rfl
  have hscore : SeqMatching.score_ref_templates 1 1 1
      [[NpVal.fin (-1)], [NpVal.fin 1], [NpVal.inf]] = .ok [NpVal.fin (-1)] := by
    have hmax : npInt ((([[NpVal.fin (-1)], [NpVal.fin 1], [NpVal.inf]] :
        List (List NpVal)).length : ℝ) - 1 -
        1 * ((([[NpVal.fin (-1)], [NpVal.fin 1], [NpVal.inf]] :
          List (List NpVal)).getD 0 []).length : ℝ)) = 1 := by
      rw [npInt, show ((([[NpVal.fin (-1)], [NpVal.fin 1], [NpVal.inf]] :
        List (List NpVal)).length : ℝ) - 1 -
        1 * ((([[NpVal.fin (-1)], [NpVal.fin 1], [NpVal.inf]] :
          List (List NpVal)).getD 0 []).length : ℝ)) = ((1 : ℤ) : ℝ) by norm_num]
      rw [if_pos (by norm_num), Int.floor_intCast]
    have hls : linspace (1 : ℝ) 1 (1 + 1) = [1, 1] := by
      have hr2 : List.range (1 + 1) = [0, 1] := rfl
      simp only [linspace, hr2, List.map_cons, List.map_nil]
      norm_num
    have hfloor0 : ⌊((0 : ℕ) : ℝ) + 1 * ((0 : ℕ) : ℝ)⌋ = 0 := by norm_num
    have hpe : SeqMatching.pathEntries [[NpVal.fin (-1)], [NpVal.fin 1], [NpVal.inf]]
        1 0 (List.range 1) = .ok [NpVal.fin (-1)] := by
      rw [show List.range 1 = [0] from rfl]
      rw [SeqMatching.pathEntries, hfloor0]
      rw [pyIndex_ok _ 0 le_rfl (by norm_num), except_ok_bind]
      rw [pyIndex_ok _ ((0 : ℕ) : ℤ) (by norm_num) (by norm_num), except_ok_bind]
      rw [SeqMatching.pathEntries, except_ok_bind]
      rfl
    have hvc : SeqMatching.velCosts [[NpVal.fin (-1)], [NpVal.fin 1], [NpVal.inf]]
        1 1 [0] = .ok [NpVal.fin (0 + -1)] := by
      rw [SeqMatching.velCosts, hpe, except_ok_bind, SeqMatching.velCosts, except_ok_bind]
      rfl
    simp only [SeqMatching.score_ref_templates, hmax]
    rw [if_neg (by norm_num)]
    rw [hls]
    rw [show (([[NpVal.fin (-1)], [NpVal.fin 1], [NpVal.inf]] :
      List (List NpVal)).getD 0 []).length = 1 from rfl]
    rw [show (1 : ℤ).toNat = 1 from rfl]
    rw [show List.range 1 = [0] from rfl,
      show List.replicate 1 NpVal.inf = [NpVal.inf] from rfl]
    rw [SeqMatching.velLoop, hvc, except_ok_bind]
    rw [SeqMatching.velLoop, hvc, except_ok_bind]
    rw [SeqMatching.velLoop]
    have h1 : npLtb (NpVal.fin (0 + -1)) NpVal.inf = true := rfl
    have h2 : npLtb (NpVal.fin (0 + -1)) (NpVal.fin (0 + -1)) = false := by
      simp [npLtb]
    simp only [List.zipWith_cons_cons, List.zipWith_nil_right, List.zipWith_nil_left,
      h1, h2, if_true, if_false]
    norm_num
  have hloc : SeqMatching.locate_best_match 1 [NpVal.fin (-1)] = .ok (0, NpVal.fin 1) := by
    norm_num [SeqMatching.locate_best_match, npArgmin, npArgminGo, npLtb, npDiv]
  exact ⟨hstd, hnf, hE, hscore, hloc⟩

/-! ## Claim C9 -/

/-- C9, counterexample.  `SingleImageMatching.localize` compares
`query_descriptors[0]`, the FIRST (oldest) descriptor of the window, not the
most recent one that ends it.  With references `[[1],[-1]]` (poses `0`, `1`)
and query window `[[1],[-1]]` (most recent last), `localize` returns pose
`0` (nearest to the first descriptor `[1]`), while the nearest reference to
the most recent descriptor `[-1]` is pose `1`. -/
theorem C9_counterexample :
    SingleImageMatching.localize [(0 : ℕ), 1] [[(1 : ℝ)], [(-1 : ℝ)]]
        [[(1 : ℝ)], [(-1 : ℝ)]] = (0, NpVal.fin 0) ∧
    SingleImageMatching.localize_descriptor [(0 : ℕ), 1] [[(1 : ℝ)], [(-1 : ℝ)]]
        [(-1 : ℝ)] = (1, NpVal.fin 0) ∧
    (0 : ℕ) ≠ 1 := by
  have hd11 : unitDist [(1 : ℝ)] [(1 : ℝ)] = NpVal.fin 0 := by
    simp only [unitDist, dot, List.zipWith_cons_cons, List.zipWith_nil_right,
      List.sum_cons, List.sum_nil]
    norm_num [Real.sqrt_zero]
  have hdm1 : unitDist [(-1 : ℝ)] [(1 : ℝ)] = NpVal.fin (Real.sqrt 4) := by
    simp only [unitDist, dot, List.zipWith_cons_cons, List.zipWith_nil_right,
      List.sum_cons, List.sum_nil]
    norm_num
  have hd1m : unitDist [(1 : ℝ)] [(-1 : ℝ)] = NpVal.fin (Real.sqrt 4) := by
    simp only [unitDist, dot, List.zipWith_cons_cons, List.zipWith_nil_right,
      List.sum_cons, List.sum_nil]
    norm_num
  have hdmm : unitDist [(-1 : ℝ)] [(-1 : ℝ)] = NpVal.fin 0 := by
    simp only [unitDist, dot, List.zipWith_cons_cons, List.zipWith_nil_right,
      List.sum_cons, List.sum_nil]
    norm_num [Real.sqrt_zero]
  have hsq1 : ¬ Real.sqrt 4 < 0 := not_lt.mpr (Real.sqrt_nonneg 4)
  have hsq2 : (0 : ℝ) < Real.sqrt 4 := Real.sqrt_pos.mpr (by norm_num)
  refine ⟨?_, ?_, by norm_num⟩
  · simp only [SingleImageMatching.localize, SingleImageMatching.localize_descriptor,
      List.getD_cons_zero, List.map_cons, List.map_nil, hd11, hdm1,
      npArgmin, npArgminGo, npIsNan, npLtb]
    simp [hsq1]
  · simp only [SingleImageMatching.localize_descriptor,
      List.map_cons, List.map_nil, hd1m, hdmm,
      npArgmin, npArgminGo, npIsNan, npLtb]
    simp [hsq2]

/-- C9, amended.  `localize` delegates to `localize_descriptor` on the
first descriptor of the query window (the oldest under the ordering the
claim states); the result is the pose at the `np.argmin` of the distance
vector together with that distance, and (when no distance is NaN) no other
reference has an IEEE-strictly smaller distance. -/
theorem C9_amended {P : Type} [Inhabited P] (poses : List P)
    (mapD : List (List ℝ)) (q0 : List ℝ) (qs : List (List ℝ))
    (hne : mapD ≠ [])
    (hnan : ∀ x ∈ mapD.map (fun r => unitDist r q0), npIsNan x = false) :
    SingleImageMatching.localize poses mapD (q0 :: qs) =
      SingleImageMatching.localize_descriptor poses mapD q0 ∧
    SingleImageMatching.localize_descriptor poses mapD q0 =
      (poses.getD (npArgmin (mapD.map (fun r => unitDist r q0))) default,
        (mapD.map (fun r => unitDist r q0)).getD
          (npArgmin (mapD.map (fun r => unitDist r q0))) .nan) ∧
    ∀ k, k < (mapD.map (fun r => unitDist r q0)).length →
      npLtb ((mapD.map (fun r => unitDist r q0)).getD k .nan)
        ((mapD.map (fun r => unitDist r q0)).getD
          (npArgmin (mapD.map (fun r => unitDist r q0))) .nan) = false := by
  refine ⟨rfl, rfl, ?_⟩
  intro k hk
  exact npArgmin_not_lt _ hnan (by simpa using hne) k hk

/-- C9, witness for the amended theorem at `poses = [5, 7]`,
`mapD = [[1],[-1]]`, query window `[[1]]`. -/
theorem C9_witness :
    SingleImageMatching.localize [(5 : ℕ), 7] [[(1 : ℝ)], [(-1 : ℝ)]] [[(1 : ℝ)]] =
      SingleImageMatching.localize_descriptor [(5 : ℕ), 7] [[(1 : ℝ)], [(-1 : ℝ)]]
        [(1 : ℝ)] ∧
    SingleImageMatching.localize_descriptor [(5 : ℕ), 7] [[(1 : ℝ)], [(-1 : ℝ)]]
        [(1 : ℝ)] =
      (([(5 : ℕ), 7] : List ℕ).getD
          (npArgmin (([[(1 : ℝ)], [(-1 : ℝ)]] : List (List ℝ)).map
            (fun r => unitDist r [(1 : ℝ)]))) default,
        (([[(1 : ℝ)], [(-1 : ℝ)]] : List (List ℝ)).map
            (fun r => unitDist r [(1 : ℝ)])).getD
          (npArgmin (([[(1 : ℝ)], [(-1 : ℝ)]] : List (List ℝ)).map
            (fun r => unitDist r [(1 : ℝ)]))) .nan) ∧
    ∀ k, k < (([[(1 : ℝ)], [(-1 : ℝ)]] : List (List ℝ)).map
        (fun r => unitDist r [(1 : ℝ)])).length →
      npLtb ((([[(1 : ℝ)], [(-1 : ℝ)]] : List (List ℝ)).map
          (fun r => unitDist r [(1 : ℝ)])).getD k .nan)
        ((([[(1 : ℝ)], [(-1 : ℝ)]] : List (List ℝ)).map
            (fun r => unitDist r [(1 : ℝ)])).getD
          (npArgmin (([[(1 : ℝ)], [(-1 : ℝ)]] : List (List ℝ)).map
            (fun r => unitDist r [(1 : ℝ)]))) .nan) = false := by
  have h1 : npIsNan (unitDist [(1 : ℝ)] [(1 : ℝ)]) = false := by
    simp only [unitDist, dot, List.zipWith_cons_cons, List.zipWith_nil_right,
      List.sum_cons, List.sum_nil]
    rw [if_neg (by norm_num)]
    rfl
  have h2 : npIsNan (unitDist [(-1 : ℝ)] [(1 : ℝ)]) = false := by
    simp only [unitDist, dot, List.zipWith_cons_cons, List.zipWith_nil_right,
      List.sum_cons, List.sum_nil]
    rw [if_neg (by norm_num)]
    rfl
  have hnan : ∀ x ∈ ([[(1 : ℝ)], [(-1 : ℝ)]] : List (List ℝ)).map
      (fun r => unitDist r [(1 : ℝ)]), npIsNan x = false := by
    intro x hx
    simp only [List.map_cons, List.map_nil, List.mem_cons, List.not_mem_nil,
      or_false] at hx
    rcases hx with rfl | rfl
    · exact h1
    · exact h2
  exact C9_amended [(5 : ℕ), 7] [[(1 : ℝ)], [(-1 : ℝ)]] [(1 : ℝ)] [] (by simp) hnan

/-! ## Claim C10 -/

theorem compute_diff_matrix_length (mapD qD : List (List ℝ)) :
    (SeqMatching.compute_diff_matrix mapD qD).length = mapD.length := by
  simp [SeqMatching.compute_diff_matrix]

theorem enhance_contrast_length (w : ℕ) (D : List (List NpVal)) :
    (SeqMatching.enhance_contrast w D).length = D.length := by
  simp [SeqMatching.enhance_contrast]

theorem compute_diff_matrix_row0 (m0 : List ℝ) (mrest : List (List ℝ))
    (qD : List (List ℝ)) :
    ((SeqMatching.compute_diff_matrix (m0 :: mrest) qD).getD 0 []).length =
      qD.length := by
  simp [SeqMatching.compute_diff_matrix]

theorem enhance_contrast_row0 (w : ℕ) (D : List (List NpVal)) (hD : D ≠ []) :
    ((SeqMatching.enhance_contrast w D).getD 0 []).length = (D.getD 0 []).length := by
  have h0 : 0 < D.length := List.length_pos.mpr hD
  simp only [SeqMatching.enhance_contrast]
  rw [List.getD_eq_getElem _ [] (by simpa using h0), List.getElem_map,
    List.getElem_range, List.length_mapIdx]

/-- C10, confirmed.  Whenever `SeqMatching.localize` returns normally, the
returned proposal is the pose at an index strictly below
`maxIndex = int(N - 1 - vMax·L)` (N references, L query descriptors): none
of the final reference positions at `maxIndex` or beyond can ever be
returned. -/
theorem C10_confirmed {P : Type} [Inhabited P] (map_poses : List P)
    (map_descriptors : List (List ℝ)) (wContrast numVel : ℕ) (vMin vMax : ℝ)
    (matchWindow : ℕ) (enhance : Bool) (query_descriptors : List (List ℝ))
    (r : P × NpVal)
    (h : SeqMatching.localize map_poses map_descriptors wContrast numVel vMin vMax
      matchWindow enhance query_descriptors = .ok r) :
    ∃ ind : ℕ,
      ind < (npInt ((map_descriptors.length : ℝ) - 1 -
        vMax * (query_descriptors.length : ℝ))).toNat ∧
      r.1 = map_poses.getD ind default := by
  simp only [SeqMatching.localize] at h
  cases hs : SeqMatching.score_ref_templates vMin vMax numVel
      (if enhance = true then
        SeqMatching.enhance_contrast wContrast
          (SeqMatching.compute_diff_matrix map_descriptors query_descriptors)
      else SeqMatching.compute_diff_matrix map_descriptors query_descriptors) with
  | error e =>
    rw [hs, except_error_bind] at h
    exact Except.noConfusion h
  | ok scores =>
    rw [hs, except_ok_bind] at h
    cases hl : SeqMatching.locate_best_match matchWindow scores with
    | error e =>
      rw [hl, except_error_bind] at h
      exact Except.noConfusion h
    | ok best =>
      rw [hl, except_ok_bind] at h
      injection h with hr
      have hl' : SeqMatching.locate_best_match matchWindow scores =
          .ok (best.1, best.2) := by rw [hl]
      obtain ⟨hSne, hind⟩ := locateNp_ok matchWindow scores best.1 best.2 hl'
      have hlt : best.1 < scores.length := by
        rw [hind]
        exact npArgminNp_lt_length scores hSne
      obtain ⟨hge, hslen⟩ := scoreNp_ok vMin vMax numVel _ scores hs
      by_cases hmapD : map_descriptors = []
      · exfalso
        have hDD : (if enhance = true then
            SeqMatching.enhance_contrast wContrast
              (SeqMatching.compute_diff_matrix map_descriptors query_descriptors)
          else SeqMatching.compute_diff_matrix map_descriptors query_descriptors) =
            ([] : List (List NpVal)) := by
          subst hmapD
          cases enhance
          · rfl
          · rfl
        rw [hDD] at hge
        have hneg : npInt ((([] : List (List NpVal)).length : ℝ) - 1 -
            vMax * ((([] : List (List NpVal)).getD 0 []).length : ℝ)) = -1 := by
          rw [npInt, show ((([] : List (List NpVal)).length : ℝ) - 1 -
            vMax * ((([] : List (List NpVal)).getD 0 []).length : ℝ)) =
              ((-1 : ℤ) : ℝ) by norm_num]
          rw [if_neg (by norm_num), Int.ceil_intCast]
        rw [hneg] at hge
        omega
      · obtain ⟨m0, mrest, rfl⟩ := List.exists_cons_of_ne_nil hmapD
        have hN : (if enhance = true then
            SeqMatching.enhance_contrast wContrast
              (SeqMatching.compute_diff_matrix (m0 :: mrest) query_descriptors)
          else SeqMatching.compute_diff_matrix (m0 :: mrest)
            query_descriptors).length = (m0 :: mrest).length := by
          cases enhance
          · simp only [Bool.false_eq_true, if_false]
            exact compute_diff_matrix_length _ _
          · simp only [if_true]
            rw [enhance_contrast_length]
            exact compute_diff_matrix_length _ _
        have hL : ((if enhance = true then
            SeqMatching.enhance_contrast wContrast
              (SeqMatching.compute_diff_matrix (m0 :: mrest) query_descriptors)
          else SeqMatching.compute_diff_matrix (m0 :: mrest)
            query_descriptors).getD 0 []).length = query_descriptors.length := by
          cases enhance
          · simp only [Bool.false_eq_true, if_false]
            exact compute_diff_matrix_row0 _ _ _
          · simp only [if_true]
            rw [enhance_contrast_row0 _ _ (by
              simp [SeqMatching.compute_diff_matrix])]
            exact compute_diff_matrix_row0 _ _ _
        rw [hN, hL] at hslen
        refine ⟨best.1, ?_, ?_⟩
        · rw [hslen] at hlt
          exact hlt
        · rw [← hr]

/-- C10, witness: `poses = [10, 20, 30]`, references `[[1],[-1],[-1]]`,
query window `[[1]]`, `vMin = vMax = 1`, `numVel = 1`, `matchWindow = 1`,
enhancement off — `localize` returns normally (with pose `10` and the NaN
confidence `0/0` produces), and the index is below `maxIndex = 1`. -/
theorem C10_witness :
    SeqMatching.localize [(10 : ℕ), 20, 30] [[(1 : ℝ)], [(-1 : ℝ)], [(-1 : ℝ)]]
        2 1 1 1 1 false [[(1 : ℝ)]] = .ok (10, NpVal.nan) ∧
    ∃ ind : ℕ,
      ind < (npInt ((([[(1 : ℝ)], [(-1 : ℝ)], [(-1 : ℝ)]] :
          List (List ℝ)).length : ℝ) - 1 -
        1 * ((([[(1 : ℝ)]] : List (List ℝ)).length : ℝ)))).toNat ∧
      (10 : ℕ) = ([(10 : ℕ), 20, 30] : List ℕ).getD ind default := by
  have hd11 : unitDist [(1 : ℝ)] [(1 : ℝ)] = NpVal.fin 0 := by
    simp only [unitDist, dot, List.zipWith_cons_cons, List.zipWith_nil_right,
      List.sum_cons, List.sum_nil]
    norm_num [Real.sqrt_zero]
  have hdm1 : unitDist [(-1 : ℝ)] [(1 : ℝ)] = NpVal.fin (Real.sqrt 4) := by
    simp only [unitDist, dot, List.zipWith_cons_cons, List.zipWith_nil_right,
      List.sum_cons, List.sum_nil]
    norm_num
  have hD : SeqMatching.compute_diff_matrix [[(1 : ℝ)], [(-1 : ℝ)], [(-1 : ℝ)]]
      [[(1 : ℝ)]] = [[NpVal.fin 0], [NpVal.fin (Real.sqrt 4)],
        [NpVal.fin (Real.sqrt 4)]] := by
    simp only [SeqMatching.compute_diff_matrix, List.map_cons, List.map_nil,
      hd11, hdm1]
  have hscore : SeqMatching.score_ref_templates 1 1 1
      [[NpVal.fin 0], [NpVal.fin (Real.sqrt 4)], [NpVal.fin (Real.sqrt 4)]] =
      .ok [NpVal.fin (0 + 0)] := by
    have hmax : npInt ((([[NpVal.fin 0], [NpVal.fin (Real.sqrt 4)],
        [NpVal.fin (Real.sqrt 4)]] : List (List NpVal)).length : ℝ) - 1 -
        1 * ((([[NpVal.fin 0], [NpVal.fin (Real.sqrt 4)],
          [NpVal.fin (Real.sqrt 4)]] : List (List NpVal)).getD 0 []).length : ℝ)) = 1 := by
      rw [npInt, show ((([[NpVal.fin 0], [NpVal.fin (Real.sqrt 4)],
        [NpVal.fin (Real.sqrt 4)]] : List (List NpVal)).length : ℝ) - 1 -
        1 * ((([[NpVal.fin 0], [NpVal.fin (Real.sqrt 4)],
          [NpVal.fin (Real.sqrt 4)]] : List (List NpVal)).getD 0 []).length : ℝ)) =
          ((1 : ℤ) : ℝ) by norm_num]
      rw [if_pos (by norm_num), Int.floor_intCast]
    have hls : linspace (1 : ℝ) 1 (1 + 1) = [1, 1] := by
      have hr2 : List.range (1 + 1) = [0, 1] := rfl
      simp only [linspace, hr2, List.map_cons, List.map_nil]
      norm_num
    have hfloor0 : ⌊((0 : ℕ) : ℝ) + 1 * ((0 : ℕ) : ℝ)⌋ = 0 := by norm_num
    have hpe : SeqMatching.pathEntries [[NpVal.fin 0], [NpVal.fin (Real.sqrt 4)],
        [NpVal.fin (Real.sqrt 4)]] 1 0 (List.range 1) = .ok [NpVal.fin 0] := by
      rw [show List.range 1 = [0] from rfl]
      rw [SeqMatching.pathEntries, hfloor0]
      rw [pyIndex_ok _ 0 le_rfl (by norm_num), except_ok_bind]
      rw [pyIndex_ok _ ((0 : ℕ) : ℤ) (by norm_num) (by norm_num), except_ok_bind]
      rw [SeqMatching.pathEntries, except_ok_bind]
      rfl
    have hvc : SeqMatching.velCosts [[NpVal.fin 0], [NpVal.fin (Real.sqrt 4)],
        [NpVal.fin (Real.sqrt 4)]] 1 1 [0] = .ok [NpVal.fin (0 + 0)] := by
      rw [SeqMatching.velCosts, hpe, except_ok_bind, SeqMatching.velCosts,
        except_ok_bind]
      rfl
    simp only [SeqMatching.score_ref_templates, hmax]
    rw [if_neg (by norm_num)]
    rw [hls]
    rw [show (([[NpVal.fin 0], [NpVal.fin (Real.sqrt 4)], [NpVal.fin (Real.sqrt 4)]] :
      List (List NpVal)).getD 0 []).length = 1 from rfl]
    rw [show (1 : ℤ).toNat = 1 from rfl]
    rw [show List.range 1 = [0] from rfl,
      show List.replicate 1 NpVal.inf = [NpVal.inf] from rfl]
    rw [SeqMatching.velLoop, hvc, except_ok_bind]
    rw [SeqMatching.velLoop, hvc, except_ok_bind]
    rw [SeqMatching.velLoop]
    have h1 : npLtb (NpVal.fin (0 + 0)) NpVal.inf = true := rfl
    have h2 : npLtb (NpVal.fin (0 + 0)) (NpVal.fin (0 + 0)) = false := by
      simp [npLtb]
    simp only [List.zipWith_cons_cons, List.zipWith_nil_right, List.zipWith_nil_left,
      h1, h2, if_true, if_false]
    norm_num
  have hscore' : SeqMatching.score_ref_templates 1 1 1
      [[NpVal.fin 0], [NpVal.fin (Real.sqrt 4)], [NpVal.fin (Real.sqrt 4)]] =
      .ok [NpVal.fin 0] := by
    rw [hscore]
    norm_num
  have hloc : SeqMatching.locate_best_match 1 [NpVal.fin 0] = .ok (0, NpVal.nan) := by
    norm_num [SeqMatching.locate_best_match, npArgmin, npArgminGo, npLtb, npDiv]
  have hrun : SeqMatching.localize [(10 : ℕ), 20, 30]
      [[(1 : ℝ)], [(-1 : ℝ)], [(-1 : ℝ)]] 2 1 1 1 1 false [[(1 : ℝ)]] =
      .ok (10, NpVal.nan) := by
    simp only [SeqMatching.localize, Bool.false_eq_true, if_false]
    rw [hD, hscore', except_ok_bind, hloc, except_ok_bind]
    rfl
  exact ⟨hrun, C10_confirmed [(10 : ℕ), 20, 30] [[(1 : ℝ)], [(-1 : ℝ)], [(-1 : ℝ)]]
    2 1 1 1 1 false [[(1 : ℝ)]] (10, NpVal.nan) hrun⟩
